import Mathlib

/-!
Verification of the restaurant menu optimizer
(`src/assets/custom/action/RestaurantOptimization.py`).

Python dictionaries (`Dict[str, int]`) are embedded as association lists
`List (String × Int)` with first-match lookup; a genuine Python dict state
always has pairwise-distinct keys, which appears as a `Nodup` hypothesis
where a proof needs it.  Python floats produced by exact integer division
(`profit_rate`, `bar_ratio`) are embedded as rationals; `int(a / b)` on
integers is embedded as truncating integer division and `a // b` as floor
division, matching Python semantics on the values arising here.
-/

namespace MAG

/-- Association-list model of a Python `Dict[str, int]`: first-match lookup. -/
def lookup? : List (String × Int) → String → Option Int
  | [], _ => none
  | p :: rest, k => if p.1 = k then some p.2 else lookup? rest k

/-- Python `d.get(k, 0)`. -/
def getD (d : List (String × Int)) (k : String) : Int :=
  (lookup? d k).getD 0

/-- Python `k in d.keys()`. -/
def hasKey (d : List (String × Int)) (k : String) : Bool :=
  (lookup? d k).isSome

/-- Python `d[k] = v` on an existing-or-new key: replace the first binding
of `k`, or append a fresh binding when `k` is absent. -/
def setKey : List (String × Int) → String → Int → List (String × Int)
  | [], k, v => [(k, v)]
  | p :: rest, k, v => if p.1 = k then (k, v) :: rest else p :: setKey rest k v

/-- Dish record from `RestaurantOptimization.py` (the cookware and unlock
level only feed catalog loading, which is upstream of every claim). -/
structure Dish where
  name : String
  price : Int
  time : Int
  ingredients : List (String × Int)
deriving Repr, DecidableEq

/-- Python `Dish.profit_rate`: `price / time if time > 0 else 0`, exact. -/
def Dish.profit_rate (d : Dish) : ℚ :=
  if d.time > 0 then (d.price : ℚ) / (d.time : ℚ) else 0

/-- Python `MenuSolution`. -/
structure MenuSolution where
  dish : Dish
  count : Int
  bar_ratio : ℚ
deriving Repr, DecidableEq

/-- Constructor line `self.total_ingredients = {name: warehouse.get(name,0) +
shop.get(name,0) for name in ingredient_names}`. -/
def total_ingredients (names : List String) (warehouse shop : List (String × Int)) :
    List (String × Int) :=
  names.map (fun n => (n, getD warehouse n + getD shop n))

/-- Python `_calc_time_limit`: `0` when `time <= 0`, else
`int(self.time_limit / dish.time)` (truncating division). -/
def calc_time_limit (timeLimit : Int) (d : Dish) : Int :=
  if d.time ≤ 0 then 0 else timeLimit.tdiv d.time

/-- One step of the `_calc_ingredient_limit` fold: `none` plays the role of
the `float('inf')` sentinel, and `available.get(g, 0) // required` is floor
division as in Python. -/
def cil_step (available : List (String × Int)) (acc : Option Int)
    (p : String × Int) : Option Int :=
  if p.2 > 0 then
    some (match acc with
      | none => (getD available p.1).fdiv p.2
      | some a => min a ((getD available p.1).fdiv p.2))
  else acc

/-- Python `_calc_ingredient_limit`: running minimum over ingredients with
positive requirement of `available.get(g, 0) // required`; `0` when no
requirement is positive (the `inf` sentinel survives the loop). -/
def calc_ingredient_limit (d : Dish) (available : List (String × Int)) : Int :=
  (d.ingredients.foldl (cil_step available) none).getD 0

/-- Python `_optimize_single_dish`: `(count, profit)`. -/
def optimize_single_dish (timeLimit : Int) (total : List (String × Int)) (d : Dish) :
    Int × Int :=
  let count := min (calc_time_limit timeLimit d) (calc_ingredient_limit d total)
  (count, count * d.price)

/-- One ingredient step of `_calc_bar_ratio`: for a positive requirement,
`max_makeable = current // required` (floor division), the candidate ratio is
`count / max_makeable` when `max_makeable > 0` else `0`, the running ratio is
the max so far, and the remaining amount is clamped at `0`; non-positive
requirements are skipped (`continue`). -/
def bar_step (count : Int) (st : ℚ × List (String × Int)) (p : String × Int) :
    ℚ × List (String × Int) :=
  if p.2 ≤ 0 then st
  else
    (max (if ((getD st.2 p.1).fdiv p.2) > 0 then
        (count : ℚ) / (((getD st.2 p.1).fdiv p.2 : Int) : ℚ) else 0) st.1,
      setKey st.2 p.1 (if getD st.2 p.1 - p.2 * count < 0 then 0
        else getD st.2 p.1 - p.2 * count))

/-- Python `_calc_bar_ratio`: fold over the dish's ingredients threading the
running ratio and the remaining-ingredient dict. -/
def calc_bar_ratio (d : Dish) (count : Int) (available : List (String × Int)) :
    ℚ × List (String × Int) :=
  d.ingredients.foldl (bar_step count) (0, available)

/-- Feasibility test performed at the top of each `count1` iteration of
`_optimize_two_dishes`: `count1 * required <= self.total_ingredients.get(g, 0)`
for every ingredient of the first dish (`can_make`). -/
def can_make (total : List (String × Int)) (d : Dish) (c : Int) : Bool :=
  d.ingredients.all (fun p => c * p.2 ≤ getD total p.1)

/-- Remaining pool computed inside `_optimize_two_dishes`: iterate over
`self.total_ingredients` and subtract `used_ingredients.get(g, 0)`; for a
dict, `used_ingredients.get(g, 0)` equals `count1 * dish1.ingredients.get(g, 0)`
whether or not `g` is one of `dish1`'s ingredients. -/
def remaining_after (total : List (String × Int)) (d : Dish) (c : Int) :
    List (String × Int) :=
  total.map (fun p => (p.1, p.2 - c * getD d.ingredients p.1))

/-- State of the `count1` enumeration in `_optimize_two_dishes`:
`best_counts` (already stored in the caller's orientation) and `best_profit`. -/
structure TwoState where
  bestCounts : Int × Int
  bestProfit : Int
deriving Repr, DecidableEq

/-- Optimal `count2` for a fixed `count1`:
`min(time_limit2, ingredient_limit(dish2, remaining))`. -/
def cand2 (total : List (String × Int)) (d1 d2 : Dish) (tl2 c1 : Int) : Int :=
  min tl2 (calc_ingredient_limit d2 (remaining_after total d1 c1))

/-- Candidate profit for a fixed `count1`: `count1*price1 + count2*price2`. -/
def cand_profit (total : List (String × Int)) (d1 d2 : Dish) (tl2 c1 : Int) : Int :=
  c1 * d1.price + cand2 total d1 d2 tl2 c1 * d2.price

/-- One iteration body of the `count1` loop: record the candidate when its
profit strictly beats the best so far, storing the counts in the original
orientation (`[count2, count1]` when the pair was swapped). -/
def two_step (total : List (String × Int)) (d1 d2 : Dish) (tl2 : Int)
    (swapped : Bool) (st : TwoState) (c1 : Int) : TwoState :=
  if cand_profit total d1 d2 tl2 c1 > st.bestProfit then
    ⟨if swapped then (cand2 total d1 d2 tl2 c1, c1)
      else (c1, cand2 total d1 d2 tl2 c1),
      cand_profit total d1 d2 tl2 c1⟩
  else st

/-- The `for count1 in range(time_limit1 + 1)` loop with its early `break`:
`fuel` counts the iterations left, `c1` is the current count; the loop body
runs only while `can_make` holds, and the first infeasible `count1` aborts
the whole enumeration. -/
def two_loop (total : List (String × Int)) (d1 d2 : Dish) (tl2 : Int)
    (swapped : Bool) : Nat → Int → TwoState → TwoState
  | 0, _, st => st
  | fuel + 1, c1, st =>
    if can_make total d1 c1 then
      two_loop total d1 d2 tl2 swapped fuel (c1 + 1)
        (two_step total d1 d2 tl2 swapped st c1)
    else st

/-- Body of `_optimize_two_dishes` after the swap decision: `d1` is the
outer-enumerated dish, `d2` the inner one, and `swapped` records whether the
caller's pair was reversed. -/
def two_core (timeLimit : Int) (total : List (String × Int)) (d1 d2 : Dish)
    (swapped : Bool) : (Int × Int) × Int :=
  let tl1 := calc_time_limit timeLimit d1
  let tl2 := calc_time_limit timeLimit d2
  let final := two_loop total d1 d2 tl2 swapped (tl1 + 1).toNat 0 ⟨(0, 0), 0⟩
  (final.bestCounts, final.bestProfit)

/-- Python `_optimize_two_dishes`: when `dish1.profit_rate < dish2.profit_rate`
the pair is swapped before the enumeration, then `count1` runs from `0` to
`time_limit1` for the outer dish. -/
def optimize_two_dishes (timeLimit : Int) (total : List (String × Int))
    (dish1 dish2 : Dish) : (Int × Int) × Int :=
  if dish1.profit_rate < dish2.profit_rate then
    two_core timeLimit total dish2 dish1 true
  else
    two_core timeLimit total dish1 dish2 false

/-- Orientation chosen by `_optimize_two_dishes`: the returned first
component is the dish enumerated in the outer `count1` loop. -/
def orient_pair (dish1 dish2 : Dish) : Dish × Dish :=
  if dish1.profit_rate < dish2.profit_rate then (dish2, dish1) else (dish1, dish2)

/-- The `best_solution` record threaded through `find_best_solution`
(`dishes`, `counts`, `profit`, `total_time_hours`). -/
structure BestSolution where
  dishes : List Dish
  counts : List Int
  profit : Int
  totalTimeHours : List ℚ
deriving Repr, DecidableEq

/-- Candidate record produced when a single dish beats the running best. -/
def single_cand (timeLimit : Int) (total : List (String × Int)) (d : Dish) :
    BestSolution :=
  ⟨[d], [(optimize_single_dish timeLimit total d).1],
    (optimize_single_dish timeLimit total d).2,
    [((optimize_single_dish timeLimit total d).1 * d.time : ℚ) / 60]⟩

/-- One iteration of the single-dish phase of `find_best_solution`. -/
def single_step (timeLimit : Int) (total : List (String × Int))
    (bs : BestSolution) (d : Dish) : BestSolution :=
  if (optimize_single_dish timeLimit total d).2 > bs.profit then
    single_cand timeLimit total d
  else bs

/-- Single-dish phase of `find_best_solution`. -/
def phase1 (timeLimit : Int) (total : List (String × Int)) (dishes : List Dish) :
    BestSolution :=
  dishes.foldl (single_step timeLimit total) ⟨[], [], 0, []⟩

/-- Python `itertools.combinations(xs, 2)` in iteration order. -/
def pairs : List Dish → List (Dish × Dish)
  | [] => []
  | d :: rest => rest.map (fun e => (d, e)) ++ pairs rest

/-- Candidate record produced when a dish pair beats the running best. -/
def pair_cand (timeLimit : Int) (total : List (String × Int)) (pr : Dish × Dish) :
    BestSolution :=
  ⟨[pr.1, pr.2],
    [(optimize_two_dishes timeLimit total pr.1 pr.2).1.1,
      (optimize_two_dishes timeLimit total pr.1 pr.2).1.2],
    (optimize_two_dishes timeLimit total pr.1 pr.2).2,
    [((optimize_two_dishes timeLimit total pr.1 pr.2).1.1 * pr.1.time : ℚ) / 60,
      ((optimize_two_dishes timeLimit total pr.1 pr.2).1.2 * pr.2.time : ℚ) / 60]⟩

/-- One iteration of the two-dish phase of `find_best_solution`. -/
def pair_step (timeLimit : Int) (total : List (String × Int))
    (bs : BestSolution) (pr : Dish × Dish) : BestSolution :=
  if (optimize_two_dishes timeLimit total pr.1 pr.2).2 > bs.profit then
    pair_cand timeLimit total pr
  else bs

/-- Two-dish phase of `find_best_solution` (runs only when `max_slots >= 2`). -/
def phase2 (timeLimit : Int) (total : List (String × Int)) (maxSlots : Int)
    (dishes : List Dish) (bs0 : BestSolution) : BestSolution :=
  if 2 ≤ maxSlots then
    (pairs dishes).foldl (pair_step timeLimit total) bs0
  else bs0

/-- One ingredient step of the demand accumulation in `find_best_solution`:
when the ingredient is a key of the shop dict, add `ingredient_demand * count`
to its running total (`try/except KeyError` insertion). -/
def demand_step (shop : List (String × Int)) (c : Int)
    (plan : List (String × Int)) (p : String × Int) : List (String × Int) :=
  if hasKey shop p.1 then
    match lookup? plan p.1 with
    | some v => setKey plan p.1 (v + p.2 * c)
    | none => plan ++ [(p.1, p.2 * c)]
  else plan

/-- Demand accumulation of `find_best_solution` for one plan entry: fold the
step over the dish's ingredient dict. -/
def add_demand (shop plan : List (String × Int)) (d : Dish) (c : Int) :
    List (String × Int) :=
  d.ingredients.foldl (demand_step shop c) plan

/-- Realization loop of `find_best_solution`: thread the remaining-ingredient
dict through `_calc_bar_ratio`, emit `MenuSolution`s, and accumulate demand. -/
def realize_loop (shop : List (String × Int)) :
    List (Dish × Int) → List (String × Int) → List (String × Int) →
    List MenuSolution × List (String × Int)
  | [], _, plan => ([], plan)
  | (d, c) :: rest, remaining, plan =>
    let br := calc_bar_ratio d c remaining
    let r := realize_loop shop rest br.2 (add_demand shop plan d c)
    (⟨d, c, br.1⟩ :: r.1, r.2)

/-- Final rectification: `demand - warehouse.get(name, 0)` clamped at `0`. -/
def rectify (warehouse plan : List (String × Int)) : List (String × Int) :=
  plan.map (fun p =>
    let r := p.2 - getD warehouse p.1
    (p.1, if r > 0 then r else 0))

/-- Python `find_best_solution`, parametrized by the already-converted time
limit in minutes, the two raw pools, the player-status ingredient-name list
and the unlocked dish list. -/
def find_best_solution (timeLimit : Int) (warehouse shop : List (String × Int))
    (names : List String) (dishes : List Dish) (maxSlots : Int) :
    List MenuSolution × List (String × Int) :=
  let total := total_ingredients names warehouse shop
  let bs := phase2 timeLimit total maxSlots dishes (phase1 timeLimit total dishes)
  let r := realize_loop shop (bs.dishes.zip bs.counts) total []
  (r.1, rectify warehouse r.2)

/-- Constructor line `self.time_limit = int(time_limit * 60)`: hours (an
exact rational standing for the Python float) to minutes, truncated toward
zero as Python `int()` does. -/
def hours_to_minutes (hours : ℚ) : Int :=
  (hours * 60).num.tdiv (hours * 60).den

/-- The optimizer invoked with an hour-valued horizon, as the constructor
does before `find_best_solution` runs. -/
def find_best_solution_hours (hours : ℚ) (warehouse shop : List (String × Int))
    (names : List String) (dishes : List Dish) (maxSlots : Int) :
    List MenuSolution × List (String × Int) :=
  find_best_solution (hours_to_minutes hours) warehouse shop names dishes maxSlots

/-- Modelled from the spec and `RestaurantMainProcess.run` (lines 35-39 of
`RestaurantMain.py`): the caller parses the free-form horizon with `float`;
on a parse failure (`None` here) it constructs the optimizer with the
documented default of 24 hours, otherwise it passes the parsed value through
unchanged. -/
def resolve_horizon : Option ℚ → ℚ
  | none => 24
  | some q => q

/-- Spec-side best single-item profit: the maximum, over the catalog, of the
single-dish profit, at least 0 (the code tracks it starting from profit 0 and
keeps strict improvements). -/
def single_best_profit (timeLimit : Int) (total : List (String × Int))
    (dishes : List Dish) : Int :=
  dishes.foldl
    (fun b d =>
      let p := (optimize_single_dish timeLimit total d).2
      if p > b then p else b)
    0

/-- Spec-side best two-item profit: the maximum, over all unordered pairs of
the catalog, of the pair profit returned by `_optimize_two_dishes`, at least 0. -/
def two_best_profit (timeLimit : Int) (total : List (String × Int))
    (dishes : List Dish) : Int :=
  (pairs dishes).foldl
    (fun b pr =>
      let p := (optimize_two_dishes timeLimit total pr.1 pr.2).2
      if p > b then p else b)
    0

/-! ### Dictionary lemmas -/

theorem lookup_mem {l : List (String × Int)} {k : String} {v : Int}
    (h : lookup? l k = some v) : (k, v) ∈ l := by
  induction l with
  | nil => simp [lookup?] at h
  | cons p rest ih =>
    obtain ⟨p1, p2⟩ := p
    by_cases hk : p1 = k
    · subst hk
      simp [lookup?] at h
      subst h
      exact List.mem_cons_self _ _
    · simp [lookup?, hk] at h
      exact List.mem_cons_of_mem _ (ih h)

theorem getD_mem {l : List (String × Int)} {k : String}
    (h : hasKey l k = true) : (k, getD l k) ∈ l := by
  unfold hasKey at h
  cases hv : lookup? l k with
  | none => simp [hv] at h
  | some v =>
    have := lookup_mem hv
    simpa [getD, hv] using this

theorem getD_nonneg {l : List (String × Int)} (h : ∀ p ∈ l, 0 ≤ p.2)
    (k : String) : 0 ≤ getD l k := by
  cases hv : lookup? l k with
  | none => simp [getD, hv]
  | some v =>
    have := h _ (lookup_mem hv)
    simpa [getD, hv] using this

theorem getD_eq_zero_of_not_hasKey {l : List (String × Int)} {k : String}
    (h : hasKey l k = false) : getD l k = 0 := by
  unfold hasKey at h
  cases hv : lookup? l k with
  | none => simp [getD, hv]
  | some v => simp [hv] at h

theorem lookup_map_value (f : String → Int → Int) (l : List (String × Int))
    (k : String) :
    lookup? (l.map (fun p => (p.1, f p.1 p.2))) k = (lookup? l k).map (f k) := by
  induction l with
  | nil => simp [lookup?]
  | cons p rest ih =>
    by_cases hk : p.1 = k
    · subst hk
      simp [lookup?]
    · simp [lookup?, hk, ih]

theorem lookup_setKey (l : List (String × Int)) (k : String) (v : Int)
    (j : String) :
    lookup? (setKey l k v) j = if j = k then some v else lookup? l j := by
  induction l with
  | nil =>
    by_cases hj : j = k <;> simp [setKey, lookup?, hj]
    exact fun h => absurd h.symm hj
  | cons p rest ih =>
    obtain ⟨p1, p2⟩ := p
    simp only [setKey]
    by_cases hp : p1 = k
    · subst hp
      simp only [if_pos rfl]
      by_cases hj : j = p1
      · subst hj
        simp [lookup?]
      · have hne : ¬ p1 = j := fun h => hj h.symm
        simp [lookup?, hne, hj]
    · simp only [if_neg hp]
      by_cases hj : p1 = j
      · subst hj
        simp [lookup?, hp]
      · simp [lookup?, hj, ih]

theorem getD_total_ingredients (names : List String)
    (warehouse shop : List (String × Int)) (g : String) :
    getD (total_ingredients names warehouse shop) g =
      if g ∈ names then getD warehouse g + getD shop g else 0 := by
  induction names with
  | nil => simp [total_ingredients, getD, lookup?]
  | cons n rest ih =>
    by_cases hg : n = g
    · subst hg
      simp [total_ingredients, getD, lookup?]
    · have h1 : getD (total_ingredients (n :: rest) warehouse shop) g
          = getD (total_ingredients rest warehouse shop) g := by
        simp [total_ingredients, getD, lookup?, hg]
      rw [h1, ih]
      have h2 : (g ∈ n :: rest) ↔ g ∈ rest := by
        constructor
        · intro h
          rcases List.mem_cons.mp h with h | h
          · exact absurd h.symm hg
          · exact h
        · exact fun h => List.mem_cons_of_mem _ h
      by_cases hmem : g ∈ rest <;> simp [h2, hmem]

theorem total_ingredients_nonneg {warehouse shop : List (String × Int)}
    (hw : ∀ p ∈ warehouse, 0 ≤ p.2) (hs : ∀ p ∈ shop, 0 ≤ p.2)
    (names : List String) (g : String) :
    0 ≤ getD (total_ingredients names warehouse shop) g := by
  rw [getD_total_ingredients]
  split
  · exact add_nonneg (getD_nonneg hw g) (getD_nonneg hs g)
  · exact le_refl 0

/-! ### Integer division lemmas -/

theorem le_fdiv_iff {a b c : Int} (hb : 0 < b) : c ≤ a.fdiv b ↔ c * b ≤ a := by
  rw [Int.fdiv_eq_ediv _ hb.le]
  exact Int.le_ediv_iff_mul_le hb

theorem mul_le_of_le_fdiv {a b c : Int} (hb : 0 < b) (h : c ≤ a.fdiv b) :
    c * b ≤ a :=
  (le_fdiv_iff hb).mp h

theorem fdiv_nonneg_of_nonneg {a b : Int} (ha : 0 ≤ a) (hb : 0 < b) :
    0 ≤ a.fdiv b := by
  rw [le_fdiv_iff hb]
  simpa using ha

theorem calc_time_limit_nonneg {tl : Int} (h : 0 ≤ tl) (d : Dish) :
    0 ≤ calc_time_limit tl d := by
  unfold calc_time_limit
  split
  · exact le_refl 0
  · exact Int.tdiv_nonneg h (by omega)

theorem calc_time_limit_nonpos {tl : Int} (h : tl ≤ 0) (d : Dish) :
    calc_time_limit tl d ≤ 0 := by
  unfold calc_time_limit
  split
  · exact le_refl 0
  · have h2 : tl = -(-tl) := by omega
    rw [h2, Int.neg_tdiv]
    have : 0 ≤ (-tl).tdiv d.time := Int.tdiv_nonneg (by omega) (by omega)
    omega

theorem mul_time_le_of_le_ctl {tl c : Int} {d : Dish} (htl : 0 < tl)
    (hc0 : 0 ≤ c) (hc : c ≤ calc_time_limit tl d) : c * d.time ≤ tl := by
  unfold calc_time_limit at hc
  by_cases ht : d.time ≤ 0
  · simp [ht] at hc
    have : c = 0 := le_antisymm hc hc0
    subst this
    simpa using htl.le
  · simp [ht] at hc
    push_neg at ht
    rw [Int.tdiv_eq_ediv htl.le ht.le] at hc
    exact (Int.le_ediv_iff_mul_le ht).mp hc

/-! ### Lemmas about the ingredient-limit fold -/

theorem cil_fold_isSome {avail : List (String × Int)}
    {l : List (String × Int)} {g : String} {r : Int}
    (hmem : (g, r) ∈ l) (hr : 0 < r) (acc : Option Int) :
    (l.foldl (cil_step avail) acc).isSome := by
  induction l generalizing acc with
  | nil => simp at hmem
  | cons p rest ih =>
    rcases List.mem_cons.mp hmem with h | h
    · have hp2 : 0 < p.2 := by
        cases h
        exact hr
      have hstep : ∀ a, (cil_step avail a p).isSome := by
        intro a
        simp [cil_step, hp2]
      have : ∀ (a : Option Int) (rest : List (String × Int)), a.isSome →
          (rest.foldl (cil_step avail) a).isSome := by
        intro a rest ha
        induction rest generalizing a with
        | nil => simpa using ha
        | cons q qs ihq =>
          apply ihq
          unfold cil_step
          split
          · simp
          · exact ha
      exact this _ rest (hstep acc)
    · exact ih h _

theorem cil_fold_le_acc {avail : List (String × Int)}
    {l : List (String × Int)} :
    ∀ {acc : Option Int} {a m : Int}, acc = some a →
      l.foldl (cil_step avail) acc = some m → m ≤ a := by
  induction l with
  | nil =>
    intro acc a m hacc hm
    subst hacc
    simp at hm
    omega
  | cons p rest ih =>
    intro acc a m hacc hm
    subst hacc
    by_cases hp : 0 < p.2
    · simp only [List.foldl_cons, cil_step, if_pos hp] at hm
      have := ih rfl hm
      omega
    · simp only [List.foldl_cons, cil_step, if_neg hp] at hm
      exact ih rfl hm

theorem cil_fold_le_branch {avail : List (String × Int)}
    {l : List (String × Int)} {g : String} {r : Int}
    (hmem : (g, r) ∈ l) (hr : 0 < r) :
    ∀ {acc : Option Int} {m : Int},
      l.foldl (cil_step avail) acc = some m → m ≤ (getD avail g).fdiv r := by
  induction l with
  | nil => simp at hmem
  | cons p rest ih =>
    intro acc m hm
    rcases List.mem_cons.mp hmem with h | h
    · subst h
      simp only [List.foldl_cons, cil_step, if_pos hr] at hm
      cases acc with
      | none => exact cil_fold_le_acc rfl hm
      | some a =>
        have := cil_fold_le_acc rfl hm
        simp at this
        omega
    · simp only [List.foldl_cons] at hm
      exact ih h hm

theorem cil_fold_ge {avail : List (String × Int)} {l : List (String × Int)}
    {c : Int} (hl : ∀ p ∈ l, 0 < p.2 → c ≤ (getD avail p.1).fdiv p.2) :
    ∀ {acc : Option Int} {m : Int}, (∀ a, acc = some a → c ≤ a) →
      l.foldl (cil_step avail) acc = some m → c ≤ m := by
  induction l with
  | nil =>
    intro acc m hacc hm
    simp at hm
    exact hacc m hm
  | cons p rest ih =>
    intro acc m hacc hm
    simp only [List.foldl_cons] at hm
    have hrest : ∀ p ∈ rest, 0 < p.2 → c ≤ (getD avail p.1).fdiv p.2 :=
      fun q hq => hl q (List.mem_cons_of_mem _ hq)
    by_cases hp : 0 < p.2
    · have hbr : c ≤ (getD avail p.1).fdiv p.2 := hl p (List.mem_cons_self _ _) hp
      refine ih hrest ?_ hm
      intro a ha
      simp only [cil_step, if_pos hp] at ha
      cases acc with
      | none =>
        simp at ha
        omega
      | some b =>
        have hb := hacc b rfl
        simp at ha
        omega
    · simp only [cil_step, if_neg hp] at hm
      exact ih hrest hacc hm

theorem cil_fold_congr {a b : List (String × Int)}
    (h : ∀ g, getD a g = getD b g) (l : List (String × Int)) :
    ∀ acc, l.foldl (cil_step a) acc = l.foldl (cil_step b) acc := by
  induction l with
  | nil => intro acc; rfl
  | cons p rest ih =>
    intro acc
    simp only [List.foldl_cons]
    rw [show cil_step a acc p = cil_step b acc p by simp [cil_step, h]]
    exact ih _

theorem cil_fold_no_pos {avail : List (String × Int)}
    {l : List (String × Int)} (h : ∀ p ∈ l, p.2 ≤ 0) (acc : Option Int) :
    l.foldl (cil_step avail) acc = acc := by
  induction l generalizing acc with
  | nil => rfl
  | cons p rest ih =>
    have hp : ¬ 0 < p.2 := by
      have := h p (List.mem_cons_self _ _)
      omega
    simp only [List.foldl_cons, cil_step, if_neg hp]
    exact ih (fun q hq => h q (List.mem_cons_of_mem _ hq)) acc

theorem calc_ingredient_limit_le {d : Dish} {avail : List (String × Int)}
    {g : String} {r : Int} (hmem : (g, r) ∈ d.ingredients) (hr : 0 < r) :
    calc_ingredient_limit d avail ≤ (getD avail g).fdiv r := by
  unfold calc_ingredient_limit
  cases hm : d.ingredients.foldl (cil_step avail) none with
  | none =>
    have := @cil_fold_isSome avail _ _ _ hmem hr none
    simp [hm] at this
  | some m => simpa using cil_fold_le_branch hmem hr hm

theorem calc_ingredient_limit_nonneg {d : Dish} {avail : List (String × Int)}
    (h : ∀ g, 0 ≤ getD avail g) : 0 ≤ calc_ingredient_limit d avail := by
  unfold calc_ingredient_limit
  cases hm : d.ingredients.foldl (cil_step avail) none with
  | none => simp
  | some m =>
    have : (0 : Int) ≤ m := by
      refine cil_fold_ge ?_ ?_ hm
      · intro p _ hp
        exact fdiv_nonneg_of_nonneg (h p.1) hp
      · intro a ha
        simp at ha
    simpa using this

theorem le_calc_ingredient_limit {d : Dish} {avail : List (String × Int)}
    {c : Int} (hex : ∃ p ∈ d.ingredients, 0 < p.2)
    (h : ∀ p ∈ d.ingredients, 0 < p.2 → c ≤ (getD avail p.1).fdiv p.2) :
    c ≤ calc_ingredient_limit d avail := by
  obtain ⟨p, hp, hp2⟩ := hex
  unfold calc_ingredient_limit
  cases hm : d.ingredients.foldl (cil_step avail) none with
  | none =>
    have := @cil_fold_isSome avail _ _ _ (by exact hp) hp2 none
    simp [hm] at this
  | some m =>
    have : c ≤ m := cil_fold_ge h (by intro a ha; simp at ha) hm
    simpa using this

theorem calc_ingredient_limit_congr {a b : List (String × Int)}
    (h : ∀ g, getD a g = getD b g) (d : Dish) :
    calc_ingredient_limit d a = calc_ingredient_limit d b := by
  unfold calc_ingredient_limit
  rw [cil_fold_congr h]

theorem calc_ingredient_limit_no_pos {d : Dish} {avail : List (String × Int)}
    (h : ∀ p ∈ d.ingredients, p.2 ≤ 0) : calc_ingredient_limit d avail = 0 := by
  unfold calc_ingredient_limit
  rw [cil_fold_no_pos h]
  rfl

/-! ### Feasibility lemmas for the searches -/

theorem can_make_spec {total : List (String × Int)} {d : Dish} {c : Int}
    (h : can_make total d c = true) :
    ∀ p ∈ d.ingredients, c * p.2 ≤ getD total p.1 := by
  intro p hp
  unfold can_make at h
  rw [List.all_eq_true] at h
  have := h p hp
  exact of_decide_eq_true this

theorem can_make_of {total : List (String × Int)} {d : Dish} {c : Int}
    (h : ∀ p ∈ d.ingredients, c * p.2 ≤ getD total p.1) :
    can_make total d c = true := by
  unfold can_make
  rw [List.all_eq_true]
  intro p hp
  exact decide_eq_true (h p hp)

theorem getD_remaining_after (total : List (String × Int)) (d : Dish)
    (c : Int) (g : String) :
    getD (remaining_after total d c) g =
      if hasKey total g then getD total g - c * getD d.ingredients g else 0 := by
  simp only [remaining_after, getD, hasKey]
  rw [lookup_map_value (fun k v => v - c * (lookup? d.ingredients k).getD 0)
    total g]
  cases lookup? total g <;> simp

theorem remaining_after_nonneg {total : List (String × Int)} {d : Dish}
    {c : Int} (htotal : ∀ g, 0 ≤ getD total g)
    (hcm : can_make total d c = true) (g : String) :
    0 ≤ getD (remaining_after total d c) g := by
  rw [getD_remaining_after]
  split
  case isTrue h =>
    by_cases hk : hasKey d.ingredients g = true
    · have h2 : c * getD d.ingredients g ≤ getD total g := by
        have := can_make_spec hcm _ (getD_mem hk)
        simpa using this
      omega
    · rw [getD_eq_zero_of_not_hasKey (l := d.ingredients)
        (by simpa using hk)]
      have := htotal g
      omega
  case isFalse h => exact le_refl 0

theorem mul_getD_le_total {total : List (String × Int)} {d : Dish} {c : Int}
    (htotal : ∀ g, 0 ≤ getD total g) (hc : 0 ≤ c)
    (hcil : c ≤ calc_ingredient_limit d total) (g : String) :
    c * getD d.ingredients g ≤ getD total g := by
  by_cases hk : hasKey d.ingredients g = true
  · have hmem := getD_mem hk
    by_cases hr : 0 < getD d.ingredients g
    · have hle : c ≤ (getD total g).fdiv (getD d.ingredients g) :=
        le_trans hcil (calc_ingredient_limit_le hmem hr)
      exact mul_le_of_le_fdiv hr hle
    · push_neg at hr
      have h1 : c * getD d.ingredients g ≤ c * 0 :=
        mul_le_mul_of_nonneg_left hr hc
      simp at h1
      exact le_trans h1 (htotal g)
  · rw [getD_eq_zero_of_not_hasKey (l := d.ingredients) (by simpa using hk)]
    simpa using htotal g

theorem single_dish_feasible {timeLimit : Int} {total : List (String × Int)}
    (htotal : ∀ g, 0 ≤ getD total g) (htl : 0 < timeLimit) (d : Dish) :
    0 ≤ (optimize_single_dish timeLimit total d).1 ∧
    (optimize_single_dish timeLimit total d).1 * d.time ≤ timeLimit ∧
    ∀ g, (optimize_single_dish timeLimit total d).1 * getD d.ingredients g ≤
      getD total g := by
  unfold optimize_single_dish
  simp only
  set c := min (calc_time_limit timeLimit d) (calc_ingredient_limit d total)
    with hc
  have hc0 : 0 ≤ c :=
    le_min (calc_time_limit_nonneg htl.le d) (calc_ingredient_limit_nonneg htotal)
  refine ⟨hc0, ?_, ?_⟩
  · exact mul_time_le_of_le_ctl htl hc0 (min_le_left _ _)
  · intro g
    exact mul_getD_le_total htotal hc0 (min_le_right _ _) g

theorem cand2_nonneg {timeLimit : Int} {total : List (String × Int)}
    {d1 d2 : Dish} {c1 : Int} (htotal : ∀ g, 0 ≤ getD total g)
    (htl : 0 ≤ timeLimit)
    (hcm : can_make total d1 c1 = true) :
    0 ≤ cand2 total d1 d2 (calc_time_limit timeLimit d2) c1 := by
  unfold cand2
  refine le_min (calc_time_limit_nonneg htl d2) ?_
  exact calc_ingredient_limit_nonneg (remaining_after_nonneg htotal hcm)

theorem cand_feasible {timeLimit : Int} {total : List (String × Int)}
    {d1 d2 : Dish} {c1 : Int} (htotal : ∀ g, 0 ≤ getD total g)
    (htl : 0 < timeLimit) (hc1 : 0 ≤ c1)
    (hc1tl : c1 ≤ calc_time_limit timeLimit d1)
    (hcm : can_make total d1 c1 = true) :
    c1 * d1.time ≤ timeLimit ∧
    cand2 total d1 d2 (calc_time_limit timeLimit d2) c1 * d2.time ≤ timeLimit ∧
    ∀ g, c1 * getD d1.ingredients g +
      cand2 total d1 d2 (calc_time_limit timeLimit d2) c1 *
        getD d2.ingredients g ≤ getD total g := by
  have hc2 := @cand2_nonneg _ _ _ d2 _ htotal htl.le hcm
  refine ⟨mul_time_le_of_le_ctl htl hc1 hc1tl, ?_, ?_⟩
  · exact mul_time_le_of_le_ctl htl hc2 (min_le_left _ _)
  · intro g
    have h1 : c1 * getD d1.ingredients g ≤ getD total g := by
      by_cases hk : hasKey d1.ingredients g = true
      · have := can_make_spec hcm _ (getD_mem hk)
        simpa using this
      · rw [getD_eq_zero_of_not_hasKey (l := d1.ingredients)
          (by simpa using hk)]
        simpa using htotal g
    by_cases hk2 : hasKey d2.ingredients g = true
    · set r2 := getD d2.ingredients g with hr2
      by_cases hpos : 0 < r2
      · have hle : cand2 total d1 d2 (calc_time_limit timeLimit d2) c1 ≤
            (getD (remaining_after total d1 c1) g).fdiv r2 := by
          refine le_trans (min_le_right _ _) ?_
          exact calc_ingredient_limit_le (getD_mem hk2) hpos
        have h2 := mul_le_of_le_fdiv hpos hle
        rw [getD_remaining_after] at h2
        by_cases hkt : hasKey total g = true
        · rw [if_pos hkt] at h2
          omega
        · rw [if_neg (by simpa using hkt)] at h2
          rw [getD_eq_zero_of_not_hasKey (l := total)
            (by simpa using hkt)] at h1 ⊢
          omega
      · push_neg at hpos
        have h2 : cand2 total d1 d2 (calc_time_limit timeLimit d2) c1 * r2 ≤
            cand2 total d1 d2 (calc_time_limit timeLimit d2) c1 * 0 :=
          mul_le_mul_of_nonneg_left hpos hc2
        simp at h2
        omega
    · rw [getD_eq_zero_of_not_hasKey (l := d2.ingredients)
        (by simpa using hk2)]
      simpa using h1

/-! ### Lemmas about the count1 enumeration loop -/

theorem two_step_cases (total : List (String × Int)) (d1 d2 : Dish)
    (tl2 : Int) (swapped : Bool) (st : TwoState) (c1 : Int) :
    two_step total d1 d2 tl2 swapped st c1 = st ∨
    two_step total d1 d2 tl2 swapped st c1 =
      ⟨if swapped then (cand2 total d1 d2 tl2 c1, c1)
        else (c1, cand2 total d1 d2 tl2 c1), cand_profit total d1 d2 tl2 c1⟩ := by
  unfold two_step
  split
  · right
    rfl
  · left
    rfl

theorem two_step_profit_mono (total : List (String × Int)) (d1 d2 : Dish)
    (tl2 : Int) (swapped : Bool) (st : TwoState) (c1 : Int) :
    st.bestProfit ≤ (two_step total d1 d2 tl2 swapped st c1).bestProfit := by
  unfold two_step
  split
  case isTrue h => exact le_of_lt h
  case isFalse h => exact le_refl _

theorem two_step_ge_cand (total : List (String × Int)) (d1 d2 : Dish)
    (tl2 : Int) (swapped : Bool) (st : TwoState) (c1 : Int) :
    cand_profit total d1 d2 tl2 c1 ≤
      (two_step total d1 d2 tl2 swapped st c1).bestProfit := by
  unfold two_step
  split
  case isTrue h => exact le_refl _
  case isFalse h => omega

theorem two_loop_profit_mono (total : List (String × Int)) (d1 d2 : Dish)
    (tl2 : Int) (swapped : Bool) :
    ∀ (fuel : Nat) (c : Int) (st : TwoState),
      st.bestProfit ≤ (two_loop total d1 d2 tl2 swapped fuel c st).bestProfit := by
  intro fuel
  induction fuel with
  | zero =>
    intro c st
    exact le_refl _
  | succ f ih =>
    intro c st
    unfold two_loop
    split
    · exact le_trans (two_step_profit_mono total d1 d2 tl2 swapped st c) (ih _ _)
    · exact le_refl _

theorem two_loop_inv (total : List (String × Int)) (d1 d2 : Dish) (tl2 : Int)
    (swapped : Bool) (Inv : TwoState → Prop) :
    ∀ (fuel : Nat) (c0 : Int) (st : TwoState),
      (∀ st2 c, Inv st2 → c0 ≤ c → c < c0 + fuel →
        can_make total d1 c = true →
        Inv (two_step total d1 d2 tl2 swapped st2 c)) →
      Inv st → Inv (two_loop total d1 d2 tl2 swapped fuel c0 st) := by
  intro fuel
  induction fuel with
  | zero =>
    intro c0 st _ hst
    exact hst
  | succ f ih =>
    intro c0 st hstep hst
    unfold two_loop
    split
    case isTrue hcm =>
      refine ih (c0 + 1) _ ?_ ?_
      · intro st2 c hI h1 h2 hc
        refine hstep st2 c hI (by omega) (by push_cast; omega) hc
      · exact hstep st c0 hst (le_refl _) (by push_cast; omega) hcm
    case isFalse => exact hst

theorem two_loop_ge_cand (total : List (String × Int)) (d1 d2 : Dish)
    (tl2 : Int) (swapped : Bool) :
    ∀ (fuel : Nat) (c0 : Int) (st : TwoState) (k : Nat), k < fuel →
      (∀ j : Nat, j ≤ k → can_make total d1 (c0 + j) = true) →
      cand_profit total d1 d2 tl2 (c0 + k) ≤
        (two_loop total d1 d2 tl2 swapped fuel c0 st).bestProfit := by
  intro fuel
  induction fuel with
  | zero =>
    intro c0 st k hk
    omega
  | succ f ih =>
    intro c0 st k hk hcan
    have hcm0 : can_make total d1 c0 = true := by
      have := hcan 0 (Nat.zero_le _)
      simpa using this
    unfold two_loop
    rw [if_pos hcm0]
    cases k with
    | zero =>
      have h1 := two_step_ge_cand total d1 d2 tl2 swapped st c0
      have h2 := two_loop_profit_mono total d1 d2 tl2 swapped f (c0 + 1)
        (two_step total d1 d2 tl2 swapped st c0)
      simp only [Nat.cast_zero, add_zero]
      omega
    | succ k2 =>
      have h3 := ih (c0 + 1) (two_step total d1 d2 tl2 swapped st c0) k2
        (by omega)
        (by
          intro j hj
          have := hcan (j + 1) (by omega)
          have heq : c0 + 1 + (j : Int) = c0 + ((j : Nat) + 1 : Nat) := by
            push_cast
            ring
          rw [heq]
          exact this)
      have heq2 : c0 + ((k2 : Nat) + 1 : Nat) = c0 + 1 + (k2 : Int) := by
        push_cast
        ring
      rw [heq2]
      exact h3

theorem can_make_of_le_cil {total : List (String × Int)} {d : Dish} {c : Int}
    (htotal : ∀ g, 0 ≤ getD total g) (hc : 0 ≤ c)
    (hcil : c ≤ calc_ingredient_limit d total) : can_make total d c = true := by
  refine can_make_of ?_
  intro p hp
  by_cases hr : 0 < p.2
  · exact mul_le_of_le_fdiv hr (le_trans hcil (calc_ingredient_limit_le hp hr))
  · push_neg at hr
    have h1 : c * p.2 ≤ c * 0 := mul_le_mul_of_nonneg_left hr hc
    simp at h1
    exact le_trans h1 (htotal p.1)

theorem two_core_feasible {timeLimit : Int} {total : List (String × Int)}
    (htotal : ∀ g, 0 ≤ getD total g) (htl : 0 < timeLimit) (d1 d2 : Dish)
    (swapped : Bool) :
    0 ≤ (two_core timeLimit total d1 d2 swapped).1.1 ∧
    0 ≤ (two_core timeLimit total d1 d2 swapped).1.2 ∧
    (two_core timeLimit total d1 d2 swapped).1.1 *
      (cond swapped d2 d1).time ≤ timeLimit ∧
    (two_core timeLimit total d1 d2 swapped).1.2 *
      (cond swapped d1 d2).time ≤ timeLimit ∧
    ∀ g, (two_core timeLimit total d1 d2 swapped).1.1 *
        getD (cond swapped d2 d1).ingredients g +
      (two_core timeLimit total d1 d2 swapped).1.2 *
        getD (cond swapped d1 d2).ingredients g ≤ getD total g := by
  have htl1 : 0 ≤ calc_time_limit timeLimit d1 :=
    calc_time_limit_nonneg htl.le d1
  have key := two_loop_inv total d1 d2 (calc_time_limit timeLimit d2) swapped
    (fun st => 0 ≤ st.bestCounts.1 ∧ 0 ≤ st.bestCounts.2 ∧
      st.bestCounts.1 * (cond swapped d2 d1).time ≤ timeLimit ∧
      st.bestCounts.2 * (cond swapped d1 d2).time ≤ timeLimit ∧
      ∀ g, st.bestCounts.1 * getD (cond swapped d2 d1).ingredients g +
        st.bestCounts.2 * getD (cond swapped d1 d2).ingredients g ≤
        getD total g)
    ((calc_time_limit timeLimit d1) + 1).toNat 0 ⟨(0, 0), 0⟩
    (by
      intro st2 c hI hc0 hcf hcm
      have hcle : c ≤ calc_time_limit timeLimit d1 := by omega
      have hf := @cand_feasible _ _ _ d2 _ htotal htl hc0 hcle hcm
      have hc2 := @cand2_nonneg _ _ _ d2 _ htotal htl.le hcm
      cases swapped with
      | true =>
        rcases two_step_cases total d1 d2 (calc_time_limit timeLimit d2) true
          st2 c with heq | heq
        · rw [heq]
          exact hI
        · rw [heq]
          refine ⟨by simpa using hc2, by simpa using hc0,
            by simpa using hf.2.1, by simpa using hf.1, ?_⟩
          intro g
          have := hf.2.2 g
          simp only [cond]
          simp
          omega
      | false =>
        rcases two_step_cases total d1 d2 (calc_time_limit timeLimit d2) false
          st2 c with heq | heq
        · rw [heq]
          exact hI
        · rw [heq]
          refine ⟨by simpa using hc0, by simpa using hc2,
            by simpa using hf.1, by simpa using hf.2.1, ?_⟩
          intro g
          have := hf.2.2 g
          simp only [cond]
          simp
          omega)
    (by
      refine ⟨le_refl 0, le_refl 0, ?_, ?_, ?_⟩
      · simpa using htl.le
      · simpa using htl.le
      · intro g
        simpa using htotal g)
  exact key

theorem two_core_cases {timeLimit : Int} {total : List (String × Int)}
    (d1 d2 : Dish) (swapped : Bool) :
    two_core timeLimit total d1 d2 swapped = ((0, 0), 0) ∨
    ∃ c1, 0 ≤ c1 ∧ c1 ≤ calc_time_limit timeLimit d1 ∧
      can_make total d1 c1 = true ∧
      two_core timeLimit total d1 d2 swapped =
        ((if swapped then (cand2 total d1 d2 (calc_time_limit timeLimit d2) c1, c1)
          else (c1, cand2 total d1 d2 (calc_time_limit timeLimit d2) c1)),
          cand_profit total d1 d2 (calc_time_limit timeLimit d2) c1) := by
  have key := two_loop_inv total d1 d2 (calc_time_limit timeLimit d2) swapped
    (fun st => st = ⟨(0, 0), 0⟩ ∨
      ∃ c1, 0 ≤ c1 ∧ c1 ≤ calc_time_limit timeLimit d1 ∧
        can_make total d1 c1 = true ∧
        st = ⟨(if swapped then
            (cand2 total d1 d2 (calc_time_limit timeLimit d2) c1, c1)
          else (c1, cand2 total d1 d2 (calc_time_limit timeLimit d2) c1)),
          cand_profit total d1 d2 (calc_time_limit timeLimit d2) c1⟩)
    ((calc_time_limit timeLimit d1) + 1).toNat 0 ⟨(0, 0), 0⟩
    (by
      intro st2 c hI hc0 hcf hcm
      rcases two_step_cases total d1 d2 (calc_time_limit timeLimit d2) swapped
        st2 c with heq | heq
      · rw [heq]
        exact hI
      · rw [heq]
        right
        exact ⟨c, hc0, by omega, hcm, rfl⟩)
    (Or.inl rfl)
  have hpair : two_core timeLimit total d1 d2 swapped =
      ((two_loop total d1 d2 (calc_time_limit timeLimit d2) swapped
          ((calc_time_limit timeLimit d1) + 1).toNat 0 ⟨(0, 0), 0⟩).bestCounts,
        (two_loop total d1 d2 (calc_time_limit timeLimit d2) swapped
          ((calc_time_limit timeLimit d1) + 1).toNat 0 ⟨(0, 0), 0⟩).bestProfit) :=
    rfl
  rcases key with h | ⟨c1, h1, h2, h3, h4⟩
  · left
    rw [hpair, h]
  · right
    refine ⟨c1, h1, h2, h3, ?_⟩
    rw [hpair, h4]

theorem two_core_profit_nonneg (timeLimit : Int) (total : List (String × Int))
    (d1 d2 : Dish) (swapped : Bool) :
    0 ≤ (two_core timeLimit total d1 d2 swapped).2 := by
  unfold two_core
  have := two_loop_profit_mono total d1 d2 (calc_time_limit timeLimit d2)
    swapped ((calc_time_limit timeLimit d1) + 1).toNat 0 ⟨(0, 0), 0⟩
  simpa using this

theorem cand_profit_zero {timeLimit : Int} {total : List (String × Int)}
    (d1 d2 : Dish) :
    cand_profit total d1 d2 (calc_time_limit timeLimit d2) 0 =
      (optimize_single_dish timeLimit total d2).2 := by
  unfold cand_profit cand2 optimize_single_dish
  have hcongr : calc_ingredient_limit d2 (remaining_after total d1 0) =
      calc_ingredient_limit d2 total := by
    refine calc_ingredient_limit_congr ?_ d2
    intro g
    rw [getD_remaining_after]
    by_cases h : hasKey total g = true
    · simp [h]
    · rw [if_neg (by simpa using h),
        getD_eq_zero_of_not_hasKey (l := total) (by simpa using h)]
  rw [hcongr]
  simp [min_comm]

theorem two_core_ge_single_inner {timeLimit : Int}
    {total : List (String × Int)} (htotal : ∀ g, 0 ≤ getD total g)
    (htl : 0 < timeLimit) (d1 d2 : Dish) (swapped : Bool) :
    (optimize_single_dish timeLimit total d2).2 ≤
      (two_core timeLimit total d1 d2 swapped).2 := by
  have hcm0 : can_make total d1 0 = true :=
    can_make_of (by
      intro p hp
      simpa using htotal p.1)
  have hfuel : 0 < ((calc_time_limit timeLimit d1) + 1).toNat := by
    have := calc_time_limit_nonneg htl.le d1
    omega
  have h := two_loop_ge_cand total d1 d2 (calc_time_limit timeLimit d2) swapped
    ((calc_time_limit timeLimit d1) + 1).toNat 0 ⟨(0, 0), 0⟩ 0 hfuel
    (by
      intro j hj
      have : j = 0 := by omega
      subst this
      simpa using hcm0)
  simp only [Nat.cast_zero, add_zero] at h
  rw [@cand_profit_zero timeLimit _ d1 d2] at h
  unfold two_core
  exact h

theorem two_core_ge_single_outer {timeLimit : Int}
    {total : List (String × Int)} {d1 d2 : Dish}
    (htotal : ∀ g, 0 ≤ getD total g)
    (htl : 0 < timeLimit) (hp2 : 0 ≤ d2.price)
    (swapped : Bool) :
    (optimize_single_dish timeLimit total d1).2 ≤
      (two_core timeLimit total d1 d2 swapped).2 := by
  set s1 := (optimize_single_dish timeLimit total d1).1 with hs1
  have hs1def : s1 = min (calc_time_limit timeLimit d1)
      (calc_ingredient_limit d1 total) := rfl
  have hs10 : 0 ≤ s1 := by
    rw [hs1def]
    exact le_min (calc_time_limit_nonneg htl.le d1)
      (calc_ingredient_limit_nonneg htotal)
  have hcan : ∀ j : Nat, (j : Int) ≤ s1 → can_make total d1 (j : Int) = true := by
    intro j hj
    refine can_make_of_le_cil htotal (by positivity) ?_
    rw [hs1def] at hj
    omega
  have hk : ((s1.toNat : Int)) = s1 := Int.toNat_of_nonneg hs10
  have hkf : s1.toNat < ((calc_time_limit timeLimit d1) + 1).toNat := by
    have h1 : s1 ≤ calc_time_limit timeLimit d1 := by
      rw [hs1def]
      exact min_le_left _ _
    have h2 : 0 ≤ calc_time_limit timeLimit d1 :=
      calc_time_limit_nonneg htl.le d1
    omega
  have h := two_loop_ge_cand total d1 d2 (calc_time_limit timeLimit d2) swapped
    ((calc_time_limit timeLimit d1) + 1).toNat 0 ⟨(0, 0), 0⟩ s1.toNat hkf
    (by
      intro j hj
      have : (j : Int) ≤ s1 := by omega
      simpa using hcan j this)
  simp only [zero_add, hk] at h
  have hlow : s1 * d1.price ≤
      cand_profit total d1 d2 (calc_time_limit timeLimit d2) s1 := by
    unfold cand_profit
    have hc2 := @cand2_nonneg _ _ _ d2 _ htotal htl.le
      (by simpa [hk] using hcan s1.toNat (by omega))
    have : 0 ≤ cand2 total d1 d2 (calc_time_limit timeLimit d2) s1 * d2.price :=
      mul_nonneg hc2 hp2
    omega
  unfold two_core
  have hsp : (optimize_single_dish timeLimit total d1).2 = s1 * d1.price := rfl
  rw [hsp]
  exact le_trans hlow h

/-! ### Generic fold-max lemmas -/

theorem foldl_max_ge_init {α : Type} (f : α → Int) :
    ∀ (l : List α) (b0 : Int),
      b0 ≤ l.foldl (fun b x => if f x > b then f x else b) b0 := by
  intro l
  induction l with
  | nil => intro b0; exact le_refl _
  | cons x rest ih =>
    intro b0
    simp only [List.foldl_cons]
    refine le_trans ?_ (ih (if f x > b0 then f x else b0))
    split <;> omega

theorem foldl_max_ge_mem {α : Type} (f : α → Int) :
    ∀ (l : List α) (b0 : Int) (x : α), x ∈ l →
      f x ≤ l.foldl (fun b x => if f x > b then f x else b) b0 := by
  intro l
  induction l with
  | nil =>
    intro b0 x hx
    simp at hx
  | cons y rest ih =>
    intro b0 x hx
    rcases List.mem_cons.mp hx with h | h
    · subst h
      simp only [List.foldl_cons]
      refine le_trans ?_ (foldl_max_ge_init f rest _)
      split <;> omega
    · exact ih _ x h

theorem foldl_max_le {α : Type} (f : α → Int) :
    ∀ (l : List α) (b0 B : Int), b0 ≤ B → (∀ x ∈ l, f x ≤ B) →
      l.foldl (fun b x => if f x > b then f x else b) b0 ≤ B := by
  intro l
  induction l with
  | nil =>
    intro b0 B h _
    exact h
  | cons y rest ih =>
    intro b0 B h hall
    simp only [List.foldl_cons]
    refine ih _ B ?_ (fun x hx => hall x (List.mem_cons_of_mem _ hx))
    have := hall y (List.mem_cons_self _ _)
    split <;> omega

/-! ### Phase-level lemmas -/

theorem foldl_step_cases {α β : Type} (step : β → α → β) (cand : α → β)
    (h : ∀ b a, step b a = b ∨ step b a = cand a) :
    ∀ (l : List α) (b0 : β),
      l.foldl step b0 = b0 ∨ ∃ a ∈ l, l.foldl step b0 = cand a := by
  intro l
  induction l with
  | nil =>
    intro b0
    left
    rfl
  | cons x rest ih =>
    intro b0
    simp only [List.foldl_cons]
    rcases h b0 x with hx | hx
    · rw [hx]
      rcases ih b0 with h1 | ⟨a, ha, h1⟩
      · left
        exact h1
      · right
        exact ⟨a, List.mem_cons_of_mem _ ha, h1⟩
    · rw [hx]
      rcases ih (cand x) with h1 | ⟨a, ha, h1⟩
      · right
        exact ⟨x, List.mem_cons_self _ _, h1⟩
      · right
        exact ⟨a, List.mem_cons_of_mem _ ha, h1⟩

theorem phase1_cases (timeLimit : Int) (total : List (String × Int))
    (dishes : List Dish) :
    phase1 timeLimit total dishes = ⟨[], [], 0, []⟩ ∨
    ∃ d ∈ dishes, phase1 timeLimit total dishes =
      single_cand timeLimit total d := by
  refine foldl_step_cases (single_step timeLimit total)
    (single_cand timeLimit total) ?_ dishes ⟨[], [], 0, []⟩
  intro b a
  unfold single_step
  split
  · right
    rfl
  · left
    rfl

theorem phase2_cases (timeLimit : Int) (total : List (String × Int))
    (maxSlots : Int) (dishes : List Dish) (bs0 : BestSolution) :
    phase2 timeLimit total maxSlots dishes bs0 = bs0 ∨
    ∃ pr ∈ pairs dishes, phase2 timeLimit total maxSlots dishes bs0 =
      pair_cand timeLimit total pr := by
  unfold phase2
  split
  · refine foldl_step_cases (pair_step timeLimit total)
      (pair_cand timeLimit total) ?_ (pairs dishes) bs0
    intro b a
    unfold pair_step
    split
    · right
      rfl
    · left
      rfl
  · left
    rfl

theorem phase1_profit_eq (timeLimit : Int) (total : List (String × Int))
    (dishes : List Dish) :
    (phase1 timeLimit total dishes).profit =
      single_best_profit timeLimit total dishes := by
  unfold phase1 single_best_profit
  generalize hbs : (⟨[], [], 0, []⟩ : BestSolution) = bs0
  have hpr : bs0.profit = 0 := by
    rw [← hbs]
  rw [← hpr]
  clear hbs hpr
  induction dishes generalizing bs0 with
  | nil => rfl
  | cons d rest ih =>
    simp only [List.foldl_cons]
    rw [ih]
    have : (single_step timeLimit total bs0 d).profit =
        (if (optimize_single_dish timeLimit total d).2 > bs0.profit
          then (optimize_single_dish timeLimit total d).2 else bs0.profit) := by
      unfold single_step single_cand
      split <;> simp
    rw [this]

theorem phase1_profit_nonneg (timeLimit : Int) (total : List (String × Int))
    (dishes : List Dish) : 0 ≤ (phase1 timeLimit total dishes).profit := by
  rw [phase1_profit_eq]
  unfold single_best_profit
  exact foldl_max_ge_init _ dishes 0

theorem single_le_phase1_profit (timeLimit : Int) (total : List (String × Int))
    {dishes : List Dish} {d : Dish} (hd : d ∈ dishes) :
    (optimize_single_dish timeLimit total d).2 ≤
      (phase1 timeLimit total dishes).profit := by
  rw [phase1_profit_eq]
  unfold single_best_profit
  exact foldl_max_ge_mem _ dishes 0 d hd

theorem phase2_profit_ge_init (timeLimit : Int) (total : List (String × Int))
    (maxSlots : Int) (dishes : List Dish) (bs0 : BestSolution) :
    bs0.profit ≤ (phase2 timeLimit total maxSlots dishes bs0).profit := by
  unfold phase2
  split
  · generalize pairs dishes = l
    induction l generalizing bs0 with
    | nil => exact le_refl _
    | cons pr rest ih =>
      simp only [List.foldl_cons]
      refine le_trans ?_ (ih (pair_step timeLimit total bs0 pr))
      unfold pair_step pair_cand
      split
      case isTrue h => exact le_of_lt h
      case isFalse h => exact le_refl _
  · exact le_refl _

/-! ### Realizer lemmas -/

theorem realize_loop_entries (shop : List (String × Int)) :
    ∀ (l : List (Dish × Int)) (remaining plan : List (String × Int)),
      ((realize_loop shop l remaining plan).1).map (fun s => (s.dish, s.count)) =
        l := by
  intro l
  induction l with
  | nil =>
    intro remaining plan
    rfl
  | cons e rest ih =>
    intro remaining plan
    obtain ⟨d, c⟩ := e
    simp only [realize_loop, List.map_cons]
    rw [ih]

theorem optimize_two_dishes_feasible {timeLimit : Int}
    {total : List (String × Int)} (htotal : ∀ g, 0 ≤ getD total g)
    (htl : 0 < timeLimit) (dish1 dish2 : Dish) :
    0 ≤ (optimize_two_dishes timeLimit total dish1 dish2).1.1 ∧
    0 ≤ (optimize_two_dishes timeLimit total dish1 dish2).1.2 ∧
    (optimize_two_dishes timeLimit total dish1 dish2).1.1 * dish1.time ≤
      timeLimit ∧
    (optimize_two_dishes timeLimit total dish1 dish2).1.2 * dish2.time ≤
      timeLimit ∧
    ∀ g, (optimize_two_dishes timeLimit total dish1 dish2).1.1 *
        getD dish1.ingredients g +
      (optimize_two_dishes timeLimit total dish1 dish2).1.2 *
        getD dish2.ingredients g ≤ getD total g := by
  unfold optimize_two_dishes
  split
  · exact two_core_feasible htotal htl dish2 dish1 true
  · exact two_core_feasible htotal htl dish1 dish2 false

theorem find_best_solution_entries (timeLimit : Int)
    (warehouse shop : List (String × Int)) (names : List String)
    (dishes : List Dish) (maxSlots : Int) :
    ((find_best_solution timeLimit warehouse shop names dishes maxSlots).1).map
        (fun s => (s.dish, s.count)) =
      (phase2 timeLimit (total_ingredients names warehouse shop) maxSlots dishes
          (phase1 timeLimit (total_ingredients names warehouse shop) dishes)).dishes.zip
        (phase2 timeLimit (total_ingredients names warehouse shop) maxSlots dishes
          (phase1 timeLimit (total_ingredients names warehouse shop) dishes)).counts :=
  realize_loop_entries shop _ _ _

/-- C1: for every allocation returned by `find_best_solution` under
non-negative pools and a positive horizon, each emitted (item, count) obeys
`count * item.time ≤ horizon-in-minutes`, and for every ingredient the sum of
`count * required-per-unit` over the allocation is at most the total pool
quantity for that ingredient. -/
theorem C1_allocation_feasible (timeLimit : Int)
    (warehouse shop : List (String × Int)) (names : List String)
    (dishes : List Dish) (maxSlots : Int)
    (hw : ∀ p ∈ warehouse, 0 ≤ p.2) (hs : ∀ p ∈ shop, 0 ≤ p.2)
    (htl : 0 < timeLimit) :
    (∀ s ∈ (find_best_solution timeLimit warehouse shop names dishes
        maxSlots).1, s.count * s.dish.time ≤ timeLimit) ∧
    (∀ g, (((find_best_solution timeLimit warehouse shop names dishes
          maxSlots).1).map (fun s => s.count * getD s.dish.ingredients g)).sum ≤
      getD (total_ingredients names warehouse shop) g) := by
  set total := total_ingredients names warehouse shop with htotaldef
  have htotal : ∀ g, 0 ≤ getD total g := total_ingredients_nonneg hw hs names
  set bs := phase2 timeLimit total maxSlots dishes (phase1 timeLimit total dishes)
    with hbs
  have hentries := find_best_solution_entries timeLimit warehouse shop names
    dishes maxSlots
  rw [← htotaldef, ← hbs] at hentries
  have hfeas : (∀ pr ∈ bs.dishes.zip bs.counts, pr.2 * pr.1.time ≤ timeLimit) ∧
      (∀ g, ((bs.dishes.zip bs.counts).map
        (fun pr => pr.2 * getD pr.1.ingredients g)).sum ≤ getD total g) := by
    rcases phase2_cases timeLimit total maxSlots dishes
      (phase1 timeLimit total dishes) with h2 | ⟨pr, hpr, h2⟩
    · rw [hbs, h2]
      rcases phase1_cases timeLimit total dishes with h1 | ⟨d, hd, h1⟩
      · rw [h1]
        refine ⟨?_, ?_⟩
        · intro pr hpr
          simp at hpr
        · intro g
          simpa using htotal g
      · rw [h1]
        have hf := single_dish_feasible htotal htl d
        refine ⟨?_, ?_⟩
        · intro pr hpr
          simp only [single_cand, List.zip_cons_cons, List.zip_nil_right,
            List.mem_singleton] at hpr
          rw [hpr]
          exact hf.2.1
        · intro g
          simp only [single_cand, List.zip_cons_cons, List.zip_nil_right,
            List.map_cons, List.map_nil, List.sum_cons, List.sum_nil, add_zero]
          exact hf.2.2 g
    · rw [hbs, h2]
      have hf := optimize_two_dishes_feasible htotal htl pr.1 pr.2
      refine ⟨?_, ?_⟩
      · intro q hq
        simp only [pair_cand, List.zip_cons_cons, List.zip_nil_right,
          List.mem_cons, List.mem_singleton] at hq
        rcases hq with hq | hq | hq
        · rw [hq]
          exact hf.2.2.1
        · rw [hq]
          exact hf.2.2.2.1
        · simp at hq
      · intro g
        simp only [pair_cand, List.zip_cons_cons, List.zip_nil_right,
          List.map_cons, List.map_nil, List.sum_cons, List.sum_nil, add_zero]
        have := hf.2.2.2.2 g
        omega
  refine ⟨?_, ?_⟩
  · intro s hs2
    have hmem : (s.dish, s.count) ∈ bs.dishes.zip bs.counts := by
      rw [← hentries]
      exact List.mem_map_of_mem _ hs2
    have := hfeas.1 _ hmem
    simpa using this
  · intro g
    have hmap : ((find_best_solution timeLimit warehouse shop names dishes
          maxSlots).1).map (fun s => s.count * getD s.dish.ingredients g) =
        ((bs.dishes.zip bs.counts).map
          (fun pr => pr.2 * getD pr.1.ingredients g)) := by
      rw [← hentries, List.map_map]
      rfl
    rw [hmap]
    exact hfeas.2 g

/-- C1 witness: the theorem applied to a concrete one-dish catalog. -/
theorem C1_allocation_feasible_witness :
    (∀ s ∈ (find_best_solution 60 [("x", 5)] [("x", 3)] ["x"]
        [⟨"C", 10, 60, [("x", 1)]⟩] 2).1, s.count * s.dish.time ≤ 60) ∧
    (∀ g, (((find_best_solution 60 [("x", 5)] [("x", 3)] ["x"]
          [⟨"C", 10, 60, [("x", 1)]⟩] 2).1).map
        (fun s => s.count * getD s.dish.ingredients g)).sum ≤
      getD (total_ingredients ["x"] [("x", 5)] [("x", 3)]) g) :=
  C1_allocation_feasible 60 [("x", 5)] [("x", 3)] ["x"]
    [⟨"C", 10, 60, [("x", 1)]⟩] 2 (by decide) (by decide) (by decide)

theorem pairs_mem_sub {l : List Dish} {pr : Dish × Dish} (h : pr ∈ pairs l) :
    pr.1 ∈ l ∧ pr.2 ∈ l := by
  induction l with
  | nil => simp [pairs] at h
  | cons a rest ih =>
    simp only [pairs, List.mem_append, List.mem_map] at h
    rcases h with ⟨e, he, hpr⟩ | h
    · subst hpr
      exact ⟨List.mem_cons_self _ _, List.mem_cons_of_mem _ he⟩
    · have := ih h
      exact ⟨List.mem_cons_of_mem _ this.1, List.mem_cons_of_mem _ this.2⟩

theorem exists_pair_of_mem {l : List Dish} {d : Dish} (hd : d ∈ l)
    (hlen : 2 ≤ l.length) :
    ∃ pr ∈ pairs l, pr.1 = d ∨ pr.2 = d := by
  cases l with
  | nil => simp at hd
  | cons a rest =>
    rcases List.mem_cons.mp hd with h | h
    · subst h
      cases rest with
      | nil => simp at hlen
      | cons b rs =>
        refine ⟨(d, b), ?_, Or.inl rfl⟩
        simp only [pairs, List.mem_append, List.mem_map]
        exact Or.inl ⟨b, List.mem_cons_self _ _, rfl⟩
    · refine ⟨(a, d), ?_, Or.inr rfl⟩
      simp only [pairs, List.mem_append, List.mem_map]
      exact Or.inl ⟨d, h, rfl⟩

theorem optimize_two_dishes_ge_singles {timeLimit : Int}
    {total : List (String × Int)} (htotal : ∀ g, 0 ≤ getD total g)
    (htl : 0 < timeLimit) {dish1 dish2 : Dish} (hp1 : 0 ≤ dish1.price)
    (hp2 : 0 ≤ dish2.price) :
    (optimize_single_dish timeLimit total dish1).2 ≤
      (optimize_two_dishes timeLimit total dish1 dish2).2 ∧
    (optimize_single_dish timeLimit total dish2).2 ≤
      (optimize_two_dishes timeLimit total dish1 dish2).2 := by
  unfold optimize_two_dishes
  split
  · exact ⟨two_core_ge_single_inner htotal htl dish2 dish1 true,
      two_core_ge_single_outer htotal htl hp1 true⟩
  · exact ⟨two_core_ge_single_outer htotal htl hp2 false,
      two_core_ge_single_inner htotal htl dish1 dish2 false⟩

/-- C2 counterexample: on a catalog with a single produceable item the
two-item search examines no pair at all, so its best profit is 0 while the
single-item best profit is positive; the claimed inequality fails. -/
theorem C2_counterexample :
    ¬ (single_best_profit 60 (total_ingredients ["x"] [("x", 5)] [])
        [⟨"C", 10, 60, [("x", 1)]⟩] ≤
      two_best_profit 60 (total_ingredients ["x"] [("x", 5)] [])
        [⟨"C", 10, 60, [("x", 1)]⟩]) := by
  decide

/-- C2 (amended): whenever the catalog holds at least two produceable items,
all prices are non-negative, the pool is non-negative and the horizon is
positive, the best two-item profit dominates the best single-item profit. -/
theorem C2_two_item_ge_single (timeLimit : Int) (total : List (String × Int))
    (dishes : List Dish) (htotal : ∀ p ∈ total, 0 ≤ p.2)
    (htl : 0 < timeLimit) (hlen : 2 ≤ dishes.length)
    (hprice : ∀ d ∈ dishes, 0 ≤ d.price) :
    single_best_profit timeLimit total dishes ≤
      two_best_profit timeLimit total dishes := by
  have htotalg : ∀ g, 0 ≤ getD total g := getD_nonneg htotal
  unfold single_best_profit
  refine foldl_max_le _ dishes 0 _ ?_ ?_
  · unfold two_best_profit
    exact foldl_max_ge_init _ (pairs dishes) 0
  · intro d hd
    obtain ⟨pr, hpr, hor⟩ := exists_pair_of_mem hd hlen
    have hsub := pairs_mem_sub hpr
    have hge := optimize_two_dishes_ge_singles htotalg htl
      (hprice _ hsub.1) (hprice _ hsub.2)
    have hmem : (optimize_two_dishes timeLimit total pr.1 pr.2).2 ≤
        two_best_profit timeLimit total dishes := by
      unfold two_best_profit
      exact foldl_max_ge_mem _ (pairs dishes) 0 pr hpr
    rcases hor with h | h
    · subst h
      exact le_trans hge.1 hmem
    · subst h
      exact le_trans hge.2 hmem

/-- C2 witness: the amended theorem applied to a concrete two-dish catalog. -/
theorem C2_two_item_ge_single_witness :
    single_best_profit 30 [("x", 3)] [⟨"H", 5, 10, [("x", 1)]⟩,
        ⟨"L", 2, 10, [("x", 1)]⟩] ≤
      two_best_profit 30 [("x", 3)] [⟨"H", 5, 10, [("x", 1)]⟩,
        ⟨"L", 2, 10, [("x", 1)]⟩] :=
  C2_two_item_ge_single 30 [("x", 3)]
    [⟨"H", 5, 10, [("x", 1)]⟩, ⟨"L", 2, 10, [("x", 1)]⟩]
    (by decide) (by decide) (by decide) (by decide)

/-! ### Lemmas about the bar-ratio fold -/

theorem bar_fold_untouched {count : Int} {g : String} :
    ∀ (l : List (String × Int)) (st : ℚ × List (String × Int)),
      (∀ p ∈ l, p.1 ≠ g) →
      getD (l.foldl (bar_step count) st).2 g = getD st.2 g := by
  intro l
  induction l with
  | nil =>
    intro st _
    rfl
  | cons p rest ih =>
    intro st hall
    simp only [List.foldl_cons]
    rw [ih _ (fun q hq => hall q (List.mem_cons_of_mem _ hq))]
    unfold bar_step
    split
    · rfl
    · simp only
      unfold getD
      rw [lookup_setKey]
      rw [if_neg]
      intro h
      exact hall p (List.mem_cons_self _ _) h.symm

theorem bar_fold_ratio {count : Int} :
    ∀ (l : List (String × Int)) (ratio0 : ℚ) (cur : List (String × Int)),
      0 ≤ count →
      (∀ p ∈ l, 0 < p.2 → count ≤ (getD cur p.1).fdiv p.2) →
      (l.map Prod.fst).Nodup →
      0 ≤ ratio0 → ratio0 ≤ 1 →
      0 ≤ (l.foldl (bar_step count) (ratio0, cur)).1 ∧
        (l.foldl (bar_step count) (ratio0, cur)).1 ≤ 1 := by
  intro l
  induction l with
  | nil =>
    intro ratio0 cur _ _ _ h0 h1
    exact ⟨h0, h1⟩
  | cons p rest ih =>
    intro ratio0 cur hc hbound hnd h0 h1
    simp only [List.foldl_cons]
    simp only [List.map_cons, List.nodup_cons] at hnd
    have hstep : ∃ st1 : ℚ × List (String × Int),
        bar_step count (ratio0, cur) p = st1 ∧ 0 ≤ st1.1 ∧ st1.1 ≤ 1 ∧
        (∀ q ∈ rest, getD st1.2 q.1 = getD cur q.1) := by
      refine ⟨bar_step count (ratio0, cur) p, rfl, ?_, ?_, ?_⟩
      · unfold bar_step
        split
        · exact h0
        · simp only
          refine le_max_of_le_right h0
      · unfold bar_step
        split
        · exact h1
        case isFalse hp =>
          push_neg at hp
          simp only [max_le_iff]
          refine ⟨?_, h1⟩
          split
          case isTrue hmm =>
            have hcm : count ≤ (getD cur p.1).fdiv p.2 :=
              hbound p (List.mem_cons_self _ _) hp
            rw [div_le_one (by exact_mod_cast hmm)]
            exact_mod_cast hcm
          case isFalse hmm => norm_num
      · intro q hq
        unfold bar_step
        split
        · rfl
        · simp only
          unfold getD
          rw [lookup_setKey]
          rw [if_neg]
          intro h
          exact hnd.1 (h ▸ List.mem_map_of_mem Prod.fst hq)
    obtain ⟨st1, hst1, hr0, hr1, hcur⟩ := hstep
    rw [hst1]
    have hbound2 : ∀ q ∈ rest, 0 < q.2 → count ≤ (getD st1.2 q.1).fdiv q.2 := by
      intro q hq hq2
      rw [hcur q hq]
      exact hbound q (List.mem_cons_of_mem _ hq) hq2
    obtain ⟨s1, s2⟩ := st1
    have := ih s1 s2 hc hbound2 hnd.2 hr0 hr1
    exact this

theorem ratio_nonneg_aux {count : Int} {s2 : List (String × Int)}
    (hc : 0 ≤ count) (p : String × Int) :
    (0 : ℚ) ≤ (if ((getD s2 p.1).fdiv p.2) > 0 then
      (count : ℚ) / (((getD s2 p.1).fdiv p.2 : Int) : ℚ) else 0) := by
  split
  case isTrue hmm =>
    apply div_nonneg
    · exact_mod_cast hc
    · exact_mod_cast hmm.le
  case isFalse hmm => exact le_refl 0

theorem bar_fold_remaining {count : Int} {g : String} :
    ∀ (l : List (String × Int)) (st : ℚ × List (String × Int)),
      (l.map Prod.fst).Nodup →
      getD (l.foldl (bar_step count) st).2 g =
        if hasKey l g = true ∧ 0 < getD l g then
          max 0 (getD st.2 g - getD l g * count)
        else getD st.2 g := by
  intro l
  induction l with
  | nil =>
    intro st _
    simp [hasKey, lookup?]
  | cons p rest ih =>
    intro st hnd
    simp only [List.map_cons, List.nodup_cons] at hnd
    simp only [List.foldl_cons]
    by_cases hpg : p.1 = g
    · subst hpg
      have hrest : ∀ q ∈ rest, q.1 ≠ p.1 := by
        intro q hq h
        apply hnd.1
        rw [← h]
        exact List.mem_map_of_mem Prod.fst hq
      rw [bar_fold_untouched rest _ hrest]
      have hkey : hasKey (p :: rest) p.1 = true := by
        simp [hasKey, lookup?]
      have hgd : getD (p :: rest) p.1 = p.2 := by
        simp [getD, lookup?]
      rw [hgd]
      unfold bar_step
      by_cases hp2 : p.2 ≤ 0
      · rw [if_pos hp2, if_neg]
        intro hand
        omega
      · rw [if_neg hp2]
        push_neg at hp2
        have hcond : hasKey (p :: rest) p.1 = true ∧ 0 < p.2 := ⟨hkey, hp2⟩
        rw [if_pos hcond]
        simp only
        unfold getD
        rw [lookup_setKey, if_pos rfl]
        simp only [Option.getD_some]
        split
        next h =>
          rw [max_eq_left (by omega)]
        next h =>
          rw [max_eq_right (by omega)]
    · have hkeyeq : hasKey (p :: rest) g = hasKey rest g := by
        simp [hasKey, lookup?, hpg]
      have hgdeq : getD (p :: rest) g = getD rest g := by
        simp [getD, lookup?, hpg]
      rw [hkeyeq, hgdeq, ih _ hnd.2]
      have hcur : getD (bar_step count st p).2 g = getD st.2 g := by
        unfold bar_step
        split
        · rfl
        · simp only
          unfold getD
          rw [lookup_setKey, if_neg]
          intro h
          exact hpg h.symm
      rw [hcur]

theorem getD_of_mem_nodup {l : List (String × Int)} {g : String} {r : Int}
    (hnd : (l.map Prod.fst).Nodup) (hmem : (g, r) ∈ l) : getD l g = r := by
  induction l with
  | nil => simp at hmem
  | cons p rest ih =>
    simp only [List.map_cons, List.nodup_cons] at hnd
    rcases List.mem_cons.mp hmem with h | h
    · subst h
      simp [getD, lookup?]
    · have hne : p.1 ≠ g := by
        intro he
        apply hnd.1
        rw [he]
        exact List.mem_map_of_mem Prod.fst h
      simp only [getD, lookup?, if_neg hne]
      exact ih hnd.2 h

theorem calc_bar_ratio_in_unit {d : Dish} {c : Int}
    {avail : List (String × Int)} (hnd : (d.ingredients.map Prod.fst).Nodup)
    (hc : 0 ≤ c)
    (hbound : ∀ p ∈ d.ingredients, 0 < p.2 → c ≤ (getD avail p.1).fdiv p.2) :
    0 ≤ (calc_bar_ratio d c avail).1 ∧ (calc_bar_ratio d c avail).1 ≤ 1 :=
  bar_fold_ratio d.ingredients 0 avail hc hbound hnd (le_refl 0) (by norm_num)

theorem bar_remaining_eq {total : List (String × Int)} {d : Dish} {c : Int}
    (hnd : (d.ingredients.map Prod.fst).Nodup)
    (hreq : ∀ p ∈ d.ingredients, 0 ≤ p.2) (hc : 0 ≤ c)
    (hcm : can_make total d c = true) :
    ∀ g, getD (calc_bar_ratio d c total).2 g =
      getD (remaining_after total d c) g := by
  intro g
  unfold calc_bar_ratio
  rw [bar_fold_remaining d.ingredients (0, total) hnd, getD_remaining_after]
  dsimp only
  by_cases hk : hasKey d.ingredients g = true
  · by_cases hpos : 0 < getD d.ingredients g
    · rw [if_pos ⟨hk, hpos⟩, mul_comm (getD d.ingredients g) c]
      have hle : c * getD d.ingredients g ≤ getD total g := by
        have := can_make_spec hcm _ (getD_mem hk)
        simpa using this
      have hmn : 0 ≤ c * getD d.ingredients g := mul_nonneg hc hpos.le
      by_cases hkt : hasKey total g = true
      · rw [if_pos hkt, max_eq_right (by omega)]
      · rw [if_neg (by simpa using hkt)]
        rw [getD_eq_zero_of_not_hasKey (l := total)
          (by simpa using hkt)] at hle ⊢
        omega
    · rw [if_neg (by
        intro hand
        exact hpos hand.2)]
      have h0 : getD d.ingredients g = 0 := by
        have := getD_nonneg hreq g
        omega
      rw [h0]
      by_cases hkt : hasKey total g = true
      · rw [if_pos hkt]
        ring
      · rw [if_neg (by simpa using hkt)]
        exact getD_eq_zero_of_not_hasKey (l := total) (by simpa using hkt)
  · rw [if_neg (by
      intro hand
      rw [hand.1] at hk
      exact hk rfl)]
    have h0 : getD d.ingredients g = 0 :=
      getD_eq_zero_of_not_hasKey (l := d.ingredients) (by simpa using hk)
    rw [h0]
    by_cases hkt : hasKey total g = true
    · rw [if_pos hkt]
      ring
    · rw [if_neg (by simpa using hkt)]
      exact getD_eq_zero_of_not_hasKey (l := total) (by simpa using hkt)

/-- C3 counterexample: with non-negative pools (`x: 2`) and positive horizon
(3 minutes), the search returns an allocation whose second plan entry has
fill ratio `3/2 > 1`: the claim as stated fails on the code. -/
theorem C3_counterexample :
    ∃ s ∈ (find_best_solution 3 [("x", 2)] [] ["x"]
        [⟨"A", 1, 1, [("x", -1)]⟩, ⟨"B", 1, 1, [("x", 1)]⟩] 2).1,
      1 < s.bar_ratio := by
  have h : (find_best_solution 3 [("x", 2)] [] ["x"]
      [⟨"A", 1, 1, [("x", -1)]⟩, ⟨"B", 1, 1, [("x", 1)]⟩] 2).1 =
      [⟨⟨"A", 1, 1, [("x", -1)]⟩, 3, 0⟩,
        ⟨⟨"B", 1, 1, [("x", 1)]⟩, 3, 3 / 2⟩] := by
    norm_num [find_best_solution, phase1, phase2, pairs, single_step,
      single_cand, pair_step, pair_cand, optimize_single_dish,
      optimize_two_dishes, Dish.profit_rate, two_core, two_loop, two_step,
      cand_profit, cand2, can_make, remaining_after, calc_time_limit,
      calc_ingredient_limit, cil_step, total_ingredients, realize_loop,
      calc_bar_ratio, bar_step, add_demand, demand_step, rectify, getD, lookup?, setKey,
      hasKey]
  rw [h]
  refine ⟨⟨⟨"B", 1, 1, [("x", 1)]⟩, 3, 3 / 2⟩, by simp, by norm_num⟩

/-- C3 (amended): for allocations produced by the search under non-negative
pools, a positive horizon, and ingredient requirement maps that are genuine
dicts with non-negative per-unit quantities, every emitted fill ratio lies in
`[0, 1]`, the ratio of each entry being computed against the pool remaining
after all earlier entries were virtually consumed. -/
theorem C3_bar_ratio_unit (timeLimit : Int)
    (warehouse shop : List (String × Int)) (names : List String)
    (dishes : List Dish) (maxSlots : Int)
    (hw : ∀ p ∈ warehouse, 0 ≤ p.2) (hs : ∀ p ∈ shop, 0 ≤ p.2)
    (htl : 0 < timeLimit)
    (hreq : ∀ d ∈ dishes, ∀ p ∈ d.ingredients, 0 ≤ p.2)
    (hnd : ∀ d ∈ dishes, (d.ingredients.map Prod.fst).Nodup) :
    ∀ s ∈ (find_best_solution timeLimit warehouse shop names dishes
        maxSlots).1, 0 ≤ s.bar_ratio ∧ s.bar_ratio ≤ 1 := by
  set total := total_ingredients names warehouse shop with htot
  have htotal : ∀ g, 0 ≤ getD total g := total_ingredients_nonneg hw hs names
  have hfbs : (find_best_solution timeLimit warehouse shop names dishes
        maxSlots).1 =
      (realize_loop shop
        ((phase2 timeLimit total maxSlots dishes
            (phase1 timeLimit total dishes)).dishes.zip
          (phase2 timeLimit total maxSlots dishes
            (phase1 timeLimit total dishes)).counts) total []).1 := rfl
  rw [hfbs]
  rcases phase2_cases timeLimit total maxSlots dishes
    (phase1 timeLimit total dishes) with h2 | ⟨pr, hpr, h2⟩
  · rw [h2]
    rcases phase1_cases timeLimit total dishes with h1 | ⟨d, hd, h1⟩
    · rw [h1]
      intro s hs2
      simp [realize_loop] at hs2
    · rw [h1]
      intro s hs2
      set c := (optimize_single_dish timeLimit total d).1 with hcdef
      have hc0 : 0 ≤ c := (single_dish_feasible htotal htl d).1
      have hbound : ∀ p ∈ d.ingredients, 0 < p.2 →
          c ≤ (getD total p.1).fdiv p.2 := by
        intro p hp hp2
        exact le_trans (min_le_right _ _) (calc_ingredient_limit_le hp hp2)
      have hr := calc_bar_ratio_in_unit (hnd d hd) hc0 hbound
      simp only [single_cand, List.zip_cons_cons, List.zip_nil_right,
        realize_loop, List.mem_singleton] at hs2
      rw [hs2]
      exact hr
  · rw [h2]
    intro s hs2
    have hsub := pairs_mem_sub hpr
    have hreq1 := hreq pr.1 hsub.1
    have hreq2 := hreq pr.2 hsub.2
    have hnd1 := hnd pr.1 hsub.1
    have hnd2 := hnd pr.2 hsub.2
    have hf := optimize_two_dishes_feasible htotal htl pr.1 pr.2
    set a := (optimize_two_dishes timeLimit total pr.1 pr.2).1.1 with hadef
    set b := (optimize_two_dishes timeLimit total pr.1 pr.2).1.2 with hbdef
    have ha : 0 ≤ a := hf.1
    have hb : 0 ≤ b := hf.2.1
    have hsum := hf.2.2.2.2
    have hmul1 : ∀ p ∈ pr.1.ingredients, a * p.2 ≤ getD total p.1 := by
      intro p hp
      have hgd : getD pr.1.ingredients p.1 = p.2 :=
        getD_of_mem_nodup hnd1 (by simpa using hp)
      have hnn : 0 ≤ b * getD pr.2.ingredients p.1 :=
        mul_nonneg hb (getD_nonneg hreq2 p.1)
      have := hsum p.1
      rw [hgd] at this
      omega
    have hbound1 : ∀ p ∈ pr.1.ingredients, 0 < p.2 →
        a ≤ (getD total p.1).fdiv p.2 := by
      intro p hp hp2
      rw [le_fdiv_iff hp2]
      exact hmul1 p hp
    have hcm1 : can_make total pr.1 a = true := can_make_of hmul1
    have hr1 := calc_bar_ratio_in_unit hnd1 ha hbound1
    have hT1 := bar_remaining_eq hnd1 hreq1 ha hcm1
    have hbound2 : ∀ p ∈ pr.2.ingredients, 0 < p.2 →
        b ≤ (getD (calc_bar_ratio pr.1 a total).2 p.1).fdiv p.2 := by
      intro p hp hp2
      rw [hT1 p.1, le_fdiv_iff hp2, getD_remaining_after]
      have hgd : getD pr.2.ingredients p.1 = p.2 :=
        getD_of_mem_nodup hnd2 (by simpa using hp)
      have hnn : 0 ≤ a * getD pr.1.ingredients p.1 :=
        mul_nonneg ha (getD_nonneg hreq1 p.1)
      have hsg := hsum p.1
      rw [hgd] at hsg
      by_cases hkt : hasKey total p.1 = true
      · rw [if_pos hkt]
        omega
      · rw [if_neg (by simpa using hkt)]
        rw [getD_eq_zero_of_not_hasKey (l := total)
          (by simpa using hkt)] at hsg
        omega
    have hr2 := calc_bar_ratio_in_unit hnd2 hb hbound2
    simp only [pair_cand, List.zip_cons_cons, List.zip_nil_right,
      realize_loop, List.mem_cons, List.mem_singleton] at hs2
    rcases hs2 with hs2 | hs2 | hs2
    · rw [hs2]
      exact hr1
    · rw [hs2]
      exact hr2
    · simp at hs2

/-- C3 witness: the amended theorem applied to a concrete two-dish catalog
sharing one ingredient. -/
theorem C3_bar_ratio_unit_witness :
    (0 : Int) < 30 ∧
    ∀ s ∈ (find_best_solution 30 [("x", 3)] [] ["x"]
        [⟨"H", 5, 10, [("x", 1)]⟩, ⟨"L", 2, 10, [("x", 1)]⟩] 2).1,
      0 ≤ s.bar_ratio ∧ s.bar_ratio ≤ 1 :=
  ⟨by decide,
    C3_bar_ratio_unit 30 [("x", 3)] [] ["x"]
      [⟨"H", 5, 10, [("x", 1)]⟩, ⟨"L", 2, 10, [("x", 1)]⟩] 2
      (by decide) (by decide) (by decide) (by decide) (by decide)⟩

theorem optimize_two_dishes_orientation (timeLimit : Int)
    (total : List (String × Int)) (dish1 dish2 : Dish) :
    optimize_two_dishes timeLimit total dish1 dish2 =
      (if dish1.profit_rate < dish2.profit_rate then
        two_core timeLimit total (orient_pair dish1 dish2).1
          (orient_pair dish1 dish2).2 true
      else
        two_core timeLimit total (orient_pair dish1 dish2).1
          (orient_pair dish1 dish2).2 false) := by
  unfold optimize_two_dishes orient_pair
  split <;> simp

/-- C4: at dish A (price 1, time 2, profit rate 1/2) and dish B (price 1,
time 1, profit rate 1), the comparison `dish1.profit_rate < dish2.profit_rate`
triggers the swap, so the dish enumerated in the outer `count1` loop (the
first component of the oriented pair) is B — the member with the strictly
HIGHER profit rate.  The code therefore orients every unequal-rate pair with
the higher-rate item outer, the opposite of the claimed (and of the source
comment's) lower-rate-outer orientation. -/
theorem C4_outer_has_higher_rate :
    (⟨"A", 1, 2, [("x", 1)]⟩ : Dish).profit_rate <
      (⟨"B", 1, 1, [("x", 1)]⟩ : Dish).profit_rate ∧
    orient_pair ⟨"A", 1, 2, [("x", 1)]⟩ ⟨"B", 1, 1, [("x", 1)]⟩ =
      (⟨"B", 1, 1, [("x", 1)]⟩, ⟨"A", 1, 2, [("x", 1)]⟩) ∧
    (orient_pair ⟨"A", 1, 2, [("x", 1)]⟩ ⟨"B", 1, 1, [("x", 1)]⟩).2.profit_rate
      < (orient_pair ⟨"A", 1, 2, [("x", 1)]⟩
          ⟨"B", 1, 1, [("x", 1)]⟩).1.profit_rate := by
  refine ⟨by norm_num [Dish.profit_rate], ?_, ?_⟩
  · rw [orient_pair, if_pos (by norm_num [Dish.profit_rate])]
  · rw [orient_pair, if_pos (by norm_num [Dish.profit_rate])]
    norm_num [Dish.profit_rate]

/-- C8 counterexample: a degenerate dish E with an empty requirement map is
assigned the positive count 3 by the two-dish search (its outer `count1` loop
is bounded only by the time limit, never by the ingredient limit), so the
optimizer does manufacture free profit for it. -/
theorem C8_counterexample :
    ∃ s ∈ (find_best_solution 3 [("x", 1)] [] ["x"]
        [⟨"E", 1, 1, []⟩, ⟨"B", 1, 1, [("x", 1)]⟩] 2).1,
      (∀ p ∈ s.dish.ingredients, p.2 ≤ 0) ∧ 0 < s.count := by
  have h : (find_best_solution 3 [("x", 1)] [] ["x"]
      [⟨"E", 1, 1, []⟩, ⟨"B", 1, 1, [("x", 1)]⟩] 2).1 =
      [⟨⟨"E", 1, 1, []⟩, 3, 0⟩, ⟨⟨"B", 1, 1, [("x", 1)]⟩, 1, 1⟩] := by
    norm_num [find_best_solution, phase1, phase2, pairs, single_step,
      single_cand, pair_step, pair_cand, optimize_single_dish,
      optimize_two_dishes, Dish.profit_rate, two_core, two_loop, two_step,
      cand_profit, cand2, can_make, remaining_after, calc_time_limit,
      calc_ingredient_limit, cil_step, total_ingredients, realize_loop,
      calc_bar_ratio, bar_step, add_demand, demand_step, rectify, getD, lookup?, setKey,
      hasKey]
  rw [h]
  refine ⟨⟨⟨"E", 1, 1, []⟩, 3, 0⟩, by simp, by simp, by norm_num⟩

/-- C8 (amended): an item with no positive ingredient requirement has
ingredient limit 0 for every pool, and the single-item search consequently
never gives it a positive production count; the two-item search, however, can
still allocate such an item a positive outer count (see the counterexample
above), because its `count1` loop checks only raw feasibility, which a
requirement-free dish always passes. -/
theorem C8_degenerate_dish (d : Dish) (avail total : List (String × Int))
    (timeLimit : Int) (hdeg : ∀ p ∈ d.ingredients, p.2 ≤ 0) :
    calc_ingredient_limit d avail = 0 ∧
    (optimize_single_dish timeLimit total d).1 ≤ 0 := by
  refine ⟨calc_ingredient_limit_no_pos hdeg, ?_⟩
  unfold optimize_single_dish
  simp only
  rw [calc_ingredient_limit_no_pos hdeg]
  exact min_le_right _ _

/-- C8 witness: the amended theorem applied to the degenerate dish E. -/
theorem C8_degenerate_dish_witness :
    calc_ingredient_limit ⟨"E", 1, 1, []⟩ [("x", 5)] = 0 ∧
    (optimize_single_dish 60 [("x", 5)] ⟨"E", 1, 1, []⟩).1 ≤ 0 :=
  C8_degenerate_dish ⟨"E", 1, 1, []⟩ [("x", 5)] [("x", 5)] 60 (by decide)

/-! ### Purchase-plan key lemmas -/

theorem hasKey_of_mem {l : List (String × Int)} {p : String × Int}
    (h : p ∈ l) : hasKey l p.1 = true := by
  induction l with
  | nil => simp at h
  | cons q rest ih =>
    unfold hasKey lookup?
    by_cases hq : q.1 = p.1
    · simp [hq]
    · simp only [if_neg hq]
      rcases List.mem_cons.mp h with h1 | h1
      · rw [h1] at hq
        exact absurd rfl hq
      · exact ih h1

theorem setKey_mem_cases {l : List (String × Int)} {k : String} {v : Int}
    {q : String × Int} (h : q ∈ setKey l k v) : q = (k, v) ∨ q ∈ l := by
  induction l with
  | nil =>
    simp [setKey] at h
    exact Or.inl h
  | cons p rest ih =>
    unfold setKey at h
    split at h
    · rcases List.mem_cons.mp h with h1 | h1
      · exact Or.inl h1
      · exact Or.inr (List.mem_cons_of_mem _ h1)
    · rcases List.mem_cons.mp h with h1 | h1
      · exact Or.inr (h1 ▸ List.mem_cons_self _ _)
      · rcases ih h1 with h2 | h2
        · exact Or.inl h2
        · exact Or.inr (List.mem_cons_of_mem _ h2)

theorem demand_step_key_prop {shop : List (String × Int)} {c : Int}
    (P : String → Prop) {plan : List (String × Int)} {p : String × Int}
    (hplan : ∀ q ∈ plan, P q.1) (hp : hasKey shop p.1 = true → P p.1) :
    ∀ q ∈ demand_step shop c plan p, P q.1 := by
  intro q hq
  unfold demand_step at hq
  split at hq
  case isTrue hkey =>
    split at hq
    case h_1 v hv =>
      rcases setKey_mem_cases hq with h | h
      · rw [h]
        exact hp hkey
      · exact hplan q h
    case h_2 hv =>
      rcases List.mem_append.mp hq with h | h
      · exact hplan q h
      · simp only [List.mem_singleton] at h
        rw [h]
        exact hp hkey
  case isFalse hkey => exact hplan q hq

theorem add_demand_key_prop {shop : List (String × Int)} {c : Int}
    (P : String → Prop) :
    ∀ (l : List (String × Int)) (plan : List (String × Int)),
      (∀ q ∈ plan, P q.1) → (∀ p ∈ l, hasKey shop p.1 = true → P p.1) →
      ∀ q ∈ l.foldl (demand_step shop c) plan, P q.1 := by
  intro l
  induction l with
  | nil =>
    intro plan hplan _ q hq
    exact hplan q hq
  | cons p rest ih =>
    intro plan hplan hl q hq
    simp only [List.foldl_cons] at hq
    refine ih _ ?_ (fun r hr => hl r (List.mem_cons_of_mem _ hr)) q hq
    exact demand_step_key_prop P hplan (hl p (List.mem_cons_self _ _))

theorem realize_plan_key_prop {shop : List (String × Int)}
    (P : String → Prop) :
    ∀ (l : List (Dish × Int)) (remaining plan : List (String × Int)),
      (∀ q ∈ plan, P q.1) →
      (∀ e ∈ l, ∀ p ∈ e.1.ingredients, hasKey shop p.1 = true → P p.1) →
      ∀ q ∈ (realize_loop shop l remaining plan).2, P q.1 := by
  intro l
  induction l with
  | nil =>
    intro remaining plan hplan _ q hq
    exact hplan q hq
  | cons e rest ih =>
    intro remaining plan hplan hl q hq
    obtain ⟨d, c⟩ := e
    simp only [realize_loop] at hq
    refine ih _ _ ?_ (fun f hf => hl f (List.mem_cons_of_mem _ hf)) q hq
    exact add_demand_key_prop P d.ingredients plan hplan
      (hl (d, c) (List.mem_cons_self _ _))

theorem rectify_mem {warehouse plan : List (String × Int)}
    {q : String × Int} (h : q ∈ rectify warehouse plan) :
    ∃ v, (q.1, v) ∈ plan ∧
      q.2 = (if v - getD warehouse q.1 > 0 then v - getD warehouse q.1
        else 0) := by
  unfold rectify at h
  rw [List.mem_map] at h
  obtain ⟨p, hp, hq⟩ := h
  refine ⟨p.2, ?_, ?_⟩
  · rw [← hq]
    exact hp
  · rw [← hq]

/-- C6 counterexample: the warehouse alone covers the demand, so the
shortfall of `x` is 0, yet the returned purchase plan still contains the
entry `("x", 0)` — a zero-shortfall ingredient appears in the mapping. -/
theorem C6_counterexample :
    ∃ q ∈ (find_best_solution 60 [("x", 5)] [("x", 3)] ["x"]
        [⟨"C", 10, 60, [("x", 1)]⟩] 2).2, ¬ 0 < q.2 := by
  have h : (find_best_solution 60 [("x", 5)] [("x", 3)] ["x"]
      [⟨"C", 10, 60, [("x", 1)]⟩] 2).2 = [("x", 0)] := by
    norm_num [find_best_solution, phase1, phase2, pairs, single_step,
      single_cand, pair_step, pair_cand, optimize_single_dish,
      optimize_two_dishes, Dish.profit_rate, two_core, two_loop, two_step,
      cand_profit, cand2, can_make, remaining_after, calc_time_limit,
      calc_ingredient_limit, cil_step, total_ingredients, realize_loop,
      calc_bar_ratio, bar_step, add_demand, demand_step, rectify, getD,
      lookup?, setKey, hasKey]
  rw [h]
  exact ⟨("x", 0), by simp, by norm_num⟩

/-- C6 (amended): every entry of the returned purchase plan has a
shop-purchasable key demanded by some allocated dish, and a value equal to
the clamped shortfall, hence ≥ 0 — but zero-shortfall ingredients are kept in
the mapping with value 0 rather than removed. -/
theorem C6_plan_keys (timeLimit : Int) (warehouse shop : List (String × Int))
    (names : List String) (dishes : List Dish) (maxSlots : Int) :
    ∀ q ∈ (find_best_solution timeLimit warehouse shop names dishes
        maxSlots).2,
      hasKey shop q.1 = true ∧ 0 ≤ q.2 ∧
      ∃ s ∈ (find_best_solution timeLimit warehouse shop names dishes
          maxSlots).1, hasKey s.dish.ingredients q.1 = true := by
  intro q hq
  set total := total_ingredients names warehouse shop with htot
  set bs := phase2 timeLimit total maxSlots dishes
    (phase1 timeLimit total dishes) with hbs
  have hfbs2 : (find_best_solution timeLimit warehouse shop names dishes
      maxSlots).2 =
      rectify warehouse
        ((realize_loop shop (bs.dishes.zip bs.counts) total []).2) := rfl
  rw [hfbs2] at hq
  obtain ⟨v, hv, hval⟩ := rectify_mem hq
  have hkey : hasKey shop q.1 = true := by
    refine realize_plan_key_prop (fun k => hasKey shop k = true)
      (bs.dishes.zip bs.counts) total [] (by simp) ?_ (q.1, v) hv
    intro e _ p _ hk
    exact hk
  have hdem : ∃ e ∈ bs.dishes.zip bs.counts,
      hasKey e.1.ingredients q.1 = true := by
    refine realize_plan_key_prop
      (fun k => ∃ e ∈ bs.dishes.zip bs.counts,
        hasKey e.1.ingredients k = true)
      (bs.dishes.zip bs.counts) total [] (by simp) ?_ (q.1, v) hv
    intro e he p hp _
    exact ⟨e, he, hasKey_of_mem hp⟩
  refine ⟨hkey, ?_, ?_⟩
  · rw [hval]
    split <;> omega
  · obtain ⟨e, he, hek⟩ := hdem
    have hentries := find_best_solution_entries timeLimit warehouse shop
      names dishes maxSlots
    rw [← htot, ← hbs] at hentries
    rw [← hentries] at he
    rw [List.mem_map] at he
    obtain ⟨s, hsmem, hse⟩ := he
    refine ⟨s, hsmem, ?_⟩
    rw [← hse] at hek
    exact hek

/-- C6 witness: the amended theorem applied to the plan entry `("x", 0)` of
a concrete run in which the warehouse covers the whole demand. -/
theorem C6_plan_keys_witness :
    (("x", 0) : String × Int) ∈ (find_best_solution 60 [("x", 5)] [("x", 3)]
        ["x"] [⟨"C", 10, 60, [("x", 1)]⟩] 2).2 ∧
    (hasKey [("x", 3)] "x" = true ∧ (0 : Int) ≤ 0 ∧
      ∃ s ∈ (find_best_solution 60 [("x", 5)] [("x", 3)] ["x"]
          [⟨"C", 10, 60, [("x", 1)]⟩] 2).1,
        hasKey s.dish.ingredients "x" = true) := by
  have hmem : (("x", 0) : String × Int) ∈ (find_best_solution 60 [("x", 5)]
      [("x", 3)] ["x"] [⟨"C", 10, 60, [("x", 1)]⟩] 2).2 := by
    have h : (find_best_solution 60 [("x", 5)] [("x", 3)] ["x"]
        [⟨"C", 10, 60, [("x", 1)]⟩] 2).2 = [("x", 0)] := by
      norm_num [find_best_solution, phase1, phase2, pairs, single_step,
        single_cand, pair_step, pair_cand, optimize_single_dish,
        optimize_two_dishes, Dish.profit_rate, two_core, two_loop, two_step,
        cand_profit, cand2, can_make, remaining_after, calc_time_limit,
        calc_ingredient_limit, cil_step, total_ingredients, realize_loop,
        calc_bar_ratio, bar_step, add_demand, demand_step, rectify, getD,
        lookup?, setKey, hasKey]
    rw [h]
    simp
  exact ⟨hmem, C6_plan_keys 60 [("x", 5)] [("x", 3)] ["x"]
    [⟨"C", 10, 60, [("x", 1)]⟩] 2 ("x", 0) hmem⟩

/-! ### Non-positive horizon lemmas -/

theorem hours_to_minutes_nonpos {q : ℚ} (h : q ≤ 0) :
    hours_to_minutes q ≤ 0 := by
  unfold hours_to_minutes
  have h60 : q * 60 ≤ 0 := by nlinarith
  have hnum : (q * 60).num ≤ 0 := Rat.num_nonpos.mpr h60
  have hden : (0 : Int) ≤ ((q * 60).den : Int) := by positivity
  have heq : (q * 60).num = -(-(q * 60).num) := by omega
  rw [heq, Int.neg_tdiv]
  have := Int.tdiv_nonneg (a := -(q * 60).num) (by omega) hden
  omega

theorem single_profit_nonpos {timeLimit : Int} {total : List (String × Int)}
    {d : Dish} (htl : timeLimit ≤ 0) (hp : 0 ≤ d.price) :
    (optimize_single_dish timeLimit total d).2 ≤ 0 := by
  unfold optimize_single_dish
  simp only
  have hc : min (calc_time_limit timeLimit d) (calc_ingredient_limit d total)
      ≤ 0 := le_trans (min_le_left _ _) (calc_time_limit_nonpos htl d)
  have := mul_le_mul_of_nonneg_right hc hp
  simpa using this

theorem phase1_no_update {timeLimit : Int} {total : List (String × Int)}
    {dishes : List Dish}
    (h : ∀ d ∈ dishes, (optimize_single_dish timeLimit total d).2 ≤ 0) :
    phase1 timeLimit total dishes = ⟨[], [], 0, []⟩ := by
  unfold phase1
  induction dishes with
  | nil => rfl
  | cons d rest ih =>
    simp only [List.foldl_cons]
    have hstep : single_step timeLimit total ⟨[], [], 0, []⟩ d =
        ⟨[], [], 0, []⟩ := by
      unfold single_step
      rw [if_neg]
      have := h d (List.mem_cons_self _ _)
      simp only [gt_iff_lt, not_lt]
      exact this
    rw [hstep]
    exact ih (fun e he => h e (List.mem_cons_of_mem _ he))

theorem two_core_profit_nonpos {timeLimit : Int} {total : List (String × Int)}
    {d1 d2 : Dish} {swapped : Bool} (htl : timeLimit ≤ 0)
    (hp2 : 0 ≤ d2.price) :
    (two_core timeLimit total d1 d2 swapped).2 ≤ 0 := by
  rcases @two_core_cases timeLimit total d1 d2 swapped
    with h | ⟨c1, h0, h1, hcm, heq⟩
  · rw [h]
  · rw [heq]
    simp only
    have hc1 : c1 = 0 :=
      le_antisymm (le_trans h1 (calc_time_limit_nonpos htl d1)) h0
    subst hc1
    unfold cand_profit
    have hc2 : cand2 total d1 d2 (calc_time_limit timeLimit d2) 0 ≤ 0 :=
      le_trans (min_le_left _ _) (calc_time_limit_nonpos htl d2)
    have hmul := mul_le_mul_of_nonneg_right hc2 hp2
    simp only [zero_mul, zero_add]
    simpa using hmul

theorem optimize_two_dishes_profit_nonpos {timeLimit : Int}
    {total : List (String × Int)} {dish1 dish2 : Dish} (htl : timeLimit ≤ 0)
    (hp1 : 0 ≤ dish1.price) (hp2 : 0 ≤ dish2.price) :
    (optimize_two_dishes timeLimit total dish1 dish2).2 ≤ 0 := by
  unfold optimize_two_dishes
  split
  · exact two_core_profit_nonpos htl hp1
  · exact two_core_profit_nonpos htl hp2

theorem phase2_no_update {timeLimit : Int} {total : List (String × Int)}
    {maxSlots : Int} {dishes : List Dish} {bs0 : BestSolution}
    (h : ∀ pr ∈ pairs dishes,
      (optimize_two_dishes timeLimit total pr.1 pr.2).2 ≤ bs0.profit) :
    phase2 timeLimit total maxSlots dishes bs0 = bs0 := by
  unfold phase2
  split
  · generalize hl : pairs dishes = l
    rw [hl] at h
    clear hl
    induction l with
    | nil => rfl
    | cons pr rest ih =>
      simp only [List.foldl_cons]
      have hstep : pair_step timeLimit total bs0 pr = bs0 := by
        unfold pair_step
        rw [if_neg]
        have := h pr (List.mem_cons_self _ _)
        simp only [gt_iff_lt, not_lt]
        exact this
      rw [hstep]
      exact ih (fun e he => h e (List.mem_cons_of_mem _ he))
  · rfl

theorem find_best_solution_empty_of_nonpos (timeLimit : Int)
    (warehouse shop : List (String × Int)) (names : List String)
    (dishes : List Dish) (maxSlots : Int) (htl : timeLimit ≤ 0)
    (hp : ∀ d ∈ dishes, 0 ≤ d.price) :
    find_best_solution timeLimit warehouse shop names dishes maxSlots =
      ([], []) := by
  set total := total_ingredients names warehouse shop with htot
  have h1 : phase1 timeLimit total dishes = ⟨[], [], 0, []⟩ :=
    phase1_no_update (fun d hd => single_profit_nonpos htl (hp d hd))
  have h2 : phase2 timeLimit total maxSlots dishes ⟨[], [], 0, []⟩ =
      ⟨[], [], 0, []⟩ := by
    refine phase2_no_update ?_
    intro pr hpr
    have hsub := pairs_mem_sub hpr
    exact optimize_two_dishes_profit_nonpos htl (hp _ hsub.1) (hp _ hsub.2)
  have hdef : find_best_solution timeLimit warehouse shop names dishes
      maxSlots =
      ((realize_loop shop
          ((phase2 timeLimit total maxSlots dishes
            (phase1 timeLimit total dishes)).dishes.zip
          (phase2 timeLimit total maxSlots dishes
            (phase1 timeLimit total dishes)).counts) total []).1,
        rectify warehouse
          (realize_loop shop
            ((phase2 timeLimit total maxSlots dishes
              (phase1 timeLimit total dishes)).dishes.zip
            (phase2 timeLimit total maxSlots dishes
              (phase1 timeLimit total dishes)).counts) total []).2) := rfl
  rw [hdef, h1, h2]
  rfl

/-- C5 counterexample: for the one-dish catalog C (10 profit, 60 minutes,
one `x` per unit) with warehouse pool `x: 5`, a zero numeric horizon yields
an empty allocation, while the documented 24-hour default yields the
allocation `[C × 5]`: a non-positive numeric horizon does not behave as if
the default horizon had been supplied. -/
theorem C5_counterexample :
    (find_best_solution_hours 0 [("x", 5)] [] ["x"]
        [⟨"C", 10, 60, [("x", 1)]⟩] 2).1 = [] ∧
    (find_best_solution_hours 24 [("x", 5)] [] ["x"]
        [⟨"C", 10, 60, [("x", 1)]⟩] 2).1 ≠ [] := by
  have ht : Int.tdiv 1440 60 = 24 := by decide
  constructor
  · norm_num [find_best_solution_hours, hours_to_minutes,
      find_best_solution, phase1, phase2, pairs, single_step, single_cand,
      pair_step, pair_cand, optimize_single_dish, optimize_two_dishes,
      Dish.profit_rate, two_core, two_loop, two_step, cand_profit, cand2,
      can_make, remaining_after, calc_time_limit, calc_ingredient_limit,
      cil_step, total_ingredients, realize_loop, calc_bar_ratio, bar_step,
      add_demand, demand_step, rectify, getD, lookup?, setKey, hasKey]
  · have h : (find_best_solution_hours 24 [("x", 5)] [] ["x"]
        [⟨"C", 10, 60, [("x", 1)]⟩] 2).1 =
        [⟨⟨"C", 10, 60, [("x", 1)]⟩, 5, 1⟩] := by
      norm_num [ht, find_best_solution_hours, hours_to_minutes,
        find_best_solution, phase1, phase2, pairs, single_step, single_cand,
        pair_step, pair_cand, optimize_single_dish, optimize_two_dishes,
        Dish.profit_rate, two_core, two_loop, two_step, cand_profit, cand2,
        can_make, remaining_after, calc_time_limit, calc_ingredient_limit,
        cil_step, total_ingredients, realize_loop, calc_bar_ratio, bar_step,
        add_demand, demand_step, rectify, getD, lookup?, setKey, hasKey]
    rw [h]
    simp

/-- C5 (amended): the fall-back to the documented 24-hour default happens
only for a non-numeric horizon (a failed parse in the caller); a non-positive
numeric horizon is NOT replaced — the optimizer runs with it, every per-dish
time limit collapses to 0 or below, and (for non-negative prices) the search
returns the empty allocation and empty purchase plan rather than the
default-horizon behaviour. -/
theorem C5_nonpositive_horizon (hours : ℚ)
    (warehouse shop : List (String × Int)) (names : List String)
    (dishes : List Dish) (maxSlots : Int) (hh : hours ≤ 0)
    (hp : ∀ d ∈ dishes, 0 ≤ d.price) :
    resolve_horizon none = 24 ∧
    find_best_solution_hours hours warehouse shop names dishes maxSlots =
      ([], []) := by
  refine ⟨rfl, ?_⟩
  unfold find_best_solution_hours
  exact find_best_solution_empty_of_nonpos _ _ _ _ _ _
    (hours_to_minutes_nonpos hh) hp

/-- C5 witness: the amended theorem applied at horizon 0 and the one-dish
catalog C. -/
theorem C5_nonpositive_horizon_witness :
    resolve_horizon none = 24 ∧
    find_best_solution_hours 0 [("x", 5)] [] ["x"]
      [⟨"C", 10, 60, [("x", 1)]⟩] 2 = ([], []) :=
  C5_nonpositive_horizon 0 [("x", 5)] [] ["x"]
    [⟨"C", 10, 60, [("x", 1)]⟩] 2 (le_refl 0) (by decide)

/-! ### Purchase-plan value lemmas -/

/-- Total ingredient demand of the whole allocation at one ingredient:
`sum over plan entries of required-per-unit * count`. -/
def total_demand (sols : List MenuSolution) (g : String) : Int :=
  (sols.map (fun s => if hasKey s.dish.ingredients g then
    getD s.dish.ingredients g * s.count else 0)).sum

/-- Same demand sum over raw (dish, count) entries. -/
def entries_demand (l : List (Dish × Int)) (g : String) : Int :=
  (l.map (fun e => if hasKey e.1.ingredients g then
    getD e.1.ingredients g * e.2 else 0)).sum

theorem lookup_append_single (l : List (String × Int)) (k : String) (v : Int)
    (j : String) :
    lookup? (l ++ [(k, v)]) j =
      match lookup? l j with
      | some w => some w
      | none => if j = k then some v else none := by
  induction l with
  | nil =>
    simp only [List.nil_append, lookup?]
    by_cases hj : k = j
    · subst hj
      simp
    · have : ¬ j = k := fun h => hj h.symm
      simp [hj, this]
  | cons p rest ih =>
    simp only [List.cons_append, lookup?]
    by_cases hp : p.1 = j
    · simp [hp]
    · simp only [if_neg hp]
      exact ih

theorem not_hasKey_of_all_ne {l : List (String × Int)} {g : String}
    (h : ∀ q ∈ l, q.1 ≠ g) : hasKey l g = false := by
  induction l with
  | nil => rfl
  | cons p rest ih =>
    unfold hasKey lookup?
    rw [if_neg (h p (List.mem_cons_self _ _))]
    exact ih (fun q hq => h q (List.mem_cons_of_mem _ hq))

theorem demand_step_lookup_self (shop : List (String × Int)) (c : Int)
    (plan : List (String × Int)) (p : String × Int) :
    lookup? (demand_step shop c plan p) p.1 =
      if hasKey shop p.1 = true then
        some ((lookup? plan p.1).getD 0 + p.2 * c)
      else lookup? plan p.1 := by
  unfold demand_step
  by_cases hshop : hasKey shop p.1 = true
  · rw [if_pos hshop, if_pos hshop]
    cases hv : lookup? plan p.1 with
    | some v =>
      simp only [hv, Option.getD_some]
      rw [lookup_setKey, if_pos rfl]
    | none =>
      simp only [hv, Option.getD_none]
      rw [lookup_append_single, hv]
      simp
  · rw [if_neg hshop, if_neg hshop]

theorem demand_step_lookup_other (shop : List (String × Int)) (c : Int)
    (plan : List (String × Int)) (p : String × Int) {g : String}
    (hne : g ≠ p.1) :
    lookup? (demand_step shop c plan p) g = lookup? plan g := by
  unfold demand_step
  split
  · cases hv : lookup? plan p.1 with
    | some v =>
      simp only [hv]
      rw [lookup_setKey, if_neg hne]
    | none =>
      simp only [hv]
      rw [lookup_append_single]
      cases hg : lookup? plan g with
      | some w => rfl
      | none =>
        simp only
        rw [if_neg hne]
  · rfl

theorem add_demand_lookup {shop : List (String × Int)} {c : Int} {d : Dish}
    (hnd : (d.ingredients.map Prod.fst).Nodup) (g : String) :
    ∀ plan, lookup? (add_demand shop plan d c) g =
      if hasKey shop g = true ∧ hasKey d.ingredients g = true then
        some ((lookup? plan g).getD 0 + getD d.ingredients g * c)
      else lookup? plan g := by
  unfold add_demand
  generalize hl : d.ingredients = l
  rw [hl] at hnd
  clear hl
  induction l with
  | nil =>
    intro plan
    rw [if_neg]
    · rfl
    · intro hand
      simp [hasKey, lookup?] at hand
  | cons p rest ih =>
    intro plan
    simp only [List.map_cons, List.nodup_cons] at hnd
    simp only [List.foldl_cons]
    by_cases hpg : p.1 = g
    · subst hpg
      have hrest : ∀ q ∈ rest, q.1 ≠ p.1 := by
        intro q hq h
        apply hnd.1
        rw [← h]
        exact List.mem_map_of_mem Prod.fst hq
      have hrk : hasKey rest p.1 = false := not_hasKey_of_all_ne hrest
      have hfold : lookup? (rest.foldl (demand_step shop c)
          (demand_step shop c plan p)) p.1 =
          lookup? (demand_step shop c plan p) p.1 := by
        rw [ih hnd.2]
        rw [if_neg]
        intro hand
        rw [hrk] at hand
        exact Bool.false_ne_true hand.2
      rw [hfold, demand_step_lookup_self]
      have hkey : hasKey (p :: rest) p.1 = true := by
        simp [hasKey, lookup?]
      have hgd : getD (p :: rest) p.1 = p.2 := by
        simp [getD, lookup?]
      rw [hgd]
      by_cases hshop : hasKey shop p.1 = true
      · rw [if_pos hshop, if_pos ⟨hshop, hkey⟩]
      · rw [if_neg hshop, if_neg (fun hand => hshop hand.1)]
    · have hstep : lookup? (demand_step shop c plan p) g = lookup? plan g :=
        demand_step_lookup_other shop c plan p (fun h => hpg h.symm)
      rw [ih hnd.2, hstep]
      have hkeyeq : hasKey (p :: rest) g = hasKey rest g := by
        simp [hasKey, lookup?, hpg]
      have hgdeq : getD (p :: rest) g = getD rest g := by
        simp [getD, lookup?, hpg]
      rw [hkeyeq, hgdeq]

theorem realize_plan_lookup {shop : List (String × Int)} {g : String} :
    ∀ (l : List (Dish × Int)) (remaining plan : List (String × Int)),
      (∀ e ∈ l, (e.1.ingredients.map Prod.fst).Nodup) →
      lookup? ((realize_loop shop l remaining plan).2) g =
        if hasKey shop g = true then
          match lookup? plan g with
          | some v => some (v + entries_demand l g)
          | none =>
            if ∃ e ∈ l, hasKey e.1.ingredients g = true then
              some (entries_demand l g)
            else none
        else lookup? plan g := by
  intro l
  induction l with
  | nil =>
    intro remaining plan _
    simp only [realize_loop, entries_demand, List.map_nil, List.sum_nil]
    by_cases hshop : hasKey shop g = true
    · rw [if_pos hshop]
      cases lookup? plan g <;> simp
    · rw [if_neg hshop]
  | cons e rest ih =>
    intro remaining plan hnd
    obtain ⟨d, c⟩ := e
    have hndd : (d.ingredients.map Prod.fst).Nodup :=
      hnd (d, c) (List.mem_cons_self _ _)
    have hndr : ∀ e ∈ rest, (e.1.ingredients.map Prod.fst).Nodup :=
      fun e he => hnd e (List.mem_cons_of_mem _ he)
    simp only [realize_loop]
    rw [ih _ _ hndr]
    have hdem : entries_demand ((d, c) :: rest) g =
        (if hasKey d.ingredients g then getD d.ingredients g * c else 0) +
          entries_demand rest g := by
      simp [entries_demand]
    by_cases hshop : hasKey shop g = true
    · rw [if_pos hshop, if_pos hshop]
      rw [add_demand_lookup hndd g plan]
      by_cases hdk : hasKey d.ingredients g = true
      · rw [if_pos ⟨hshop, hdk⟩, hdem, if_pos hdk]
        cases hv : lookup? plan g with
        | some v =>
          simp only [hv, Option.getD_some]
          congr 1
          ring
        | none =>
          simp only [hv, Option.getD_none]
          rw [if_pos ⟨(d, c), List.mem_cons_self _ _, hdk⟩]
          congr 1
          ring
      · rw [if_neg (fun hand => hdk hand.2), hdem, if_neg hdk]
        have hexeq : (∃ e ∈ (d, c) :: rest, hasKey e.1.ingredients g = true)
            ↔ (∃ e ∈ rest, hasKey e.1.ingredients g = true) := by
          constructor
          · intro hc
            obtain ⟨e, he, hke⟩ := hc
            rcases List.mem_cons.mp he with h1 | h1
            · rw [h1] at hke
              exact absurd hke (by simpa using hdk)
            · exact ⟨e, h1, hke⟩
          · intro hc
            obtain ⟨e, he, hke⟩ := hc
            exact ⟨e, List.mem_cons_of_mem _ he, hke⟩
        cases hv : lookup? plan g with
        | some v =>
          simp only [hv]
          congr 2
          ring
        | none =>
          simp only [hv]
          by_cases hex : ∃ e ∈ rest, hasKey e.1.ingredients g = true
          · rw [if_pos hex, if_pos (hexeq.mpr hex)]
            congr 1
            ring
          · rw [if_neg hex, if_neg (fun h => hex (hexeq.mp h))]
    · rw [if_neg hshop, if_neg hshop]
      rw [add_demand_lookup hndd g plan]
      rw [if_neg (fun hand => hshop hand.1)]

theorem rectify_lookup (warehouse plan : List (String × Int)) (g : String) :
    lookup? (rectify warehouse plan) g =
      (lookup? plan g).map (fun v =>
        if v - getD warehouse g > 0 then v - getD warehouse g else 0) := by
  unfold rectify
  exact lookup_map_value
    (fun k v => if v - getD warehouse k > 0 then v - getD warehouse k else 0)
    plan g

theorem total_demand_eq_entries (sols : List MenuSolution) (g : String) :
    total_demand sols g =
      entries_demand (sols.map (fun s => (s.dish, s.count))) g := by
  unfold total_demand entries_demand
  rw [List.map_map]
  rfl

theorem selected_dish_mem (timeLimit : Int) (total : List (String × Int))
    (maxSlots : Int) (dishes : List Dish) :
    ∀ e ∈ (phase2 timeLimit total maxSlots dishes
        (phase1 timeLimit total dishes)).dishes.zip
      (phase2 timeLimit total maxSlots dishes
        (phase1 timeLimit total dishes)).counts, e.1 ∈ dishes := by
  rcases phase2_cases timeLimit total maxSlots dishes
    (phase1 timeLimit total dishes) with h2 | ⟨pr, hpr, h2⟩
  · rw [h2]
    rcases phase1_cases timeLimit total dishes with h1 | ⟨d, hd, h1⟩
    · rw [h1]
      intro e he
      simp at he
    · rw [h1]
      intro e he
      simp only [single_cand, List.zip_cons_cons, List.zip_nil_right,
        List.mem_singleton] at he
      rw [he]
      exact hd
  · rw [h2]
    intro e he
    have hsub := pairs_mem_sub hpr
    simp only [pair_cand, List.zip_cons_cons, List.zip_nil_right,
      List.mem_cons, List.mem_singleton] at he
    rcases he with he | he | he
    · rw [he]
      exact hsub.1
    · rw [he]
      exact hsub.2
    · simp at he

/-- C7: the returned purchase plan maps each shop-purchasable ingredient
demanded by the allocation to `max(0, total demand − warehouse quantity)`,
never holds an ingredient that is not shop-purchasable, and all its values
are non-negative. -/
theorem C7_purchase_plan_formula (timeLimit : Int)
    (warehouse shop : List (String × Int)) (names : List String)
    (dishes : List Dish) (maxSlots : Int)
    (hnd : ∀ d ∈ dishes, (d.ingredients.map Prod.fst).Nodup) :
    (∀ g, hasKey shop g = false →
      lookup? (find_best_solution timeLimit warehouse shop names dishes
        maxSlots).2 g = none) ∧
    (∀ g, hasKey shop g = true →
      (∃ s ∈ (find_best_solution timeLimit warehouse shop names dishes
          maxSlots).1, hasKey s.dish.ingredients g = true) →
      getD (find_best_solution timeLimit warehouse shop names dishes
          maxSlots).2 g =
        max 0 (total_demand (find_best_solution timeLimit warehouse shop
          names dishes maxSlots).1 g - getD warehouse g)) ∧
    (∀ q ∈ (find_best_solution timeLimit warehouse shop names dishes
        maxSlots).2, 0 ≤ q.2) := by
  set total := total_ingredients names warehouse shop with htot
  set bs := phase2 timeLimit total maxSlots dishes
    (phase1 timeLimit total dishes) with hbs
  have hnde : ∀ e ∈ bs.dishes.zip bs.counts,
      (e.1.ingredients.map Prod.fst).Nodup := by
    intro e he
    exact hnd e.1 (selected_dish_mem timeLimit total maxSlots dishes e he)
  have hentries := find_best_solution_entries timeLimit warehouse shop names
    dishes maxSlots
  rw [← htot, ← hbs] at hentries
  have hfbs2 : (find_best_solution timeLimit warehouse shop names dishes
      maxSlots).2 =
      rectify warehouse
        ((realize_loop shop (bs.dishes.zip bs.counts) total []).2) := rfl
  have hplan : ∀ g : String,
      lookup? ((realize_loop shop (bs.dishes.zip bs.counts) total []).2) g =
        if hasKey shop g = true then
          match lookup? ([] : List (String × Int)) g with
          | some v => some (v + entries_demand (bs.dishes.zip bs.counts) g)
          | none =>
            if ∃ e ∈ bs.dishes.zip bs.counts,
                hasKey e.1.ingredients g = true then
              some (entries_demand (bs.dishes.zip bs.counts) g)
            else none
        else lookup? ([] : List (String × Int)) g :=
    fun g => realize_plan_lookup (g := g) (bs.dishes.zip bs.counts) total []
      hnde
  refine ⟨?_, ?_, ?_⟩
  · intro g hg
    rw [hfbs2, rectify_lookup, hplan g, if_neg (by simp [hg])]
    rfl
  · intro g hg hdem
    have hdem2 : ∃ e ∈ bs.dishes.zip bs.counts,
        hasKey e.1.ingredients g = true := by
      obtain ⟨s, hs, hks⟩ := hdem
      refine ⟨(s.dish, s.count), ?_, hks⟩
      rw [← hentries]
      exact List.mem_map_of_mem _ hs
    have hdemval : total_demand (find_best_solution timeLimit warehouse shop
        names dishes maxSlots).1 g = entries_demand (bs.dishes.zip bs.counts)
        g := by
      rw [total_demand_eq_entries, hentries]
    rw [hdemval, hfbs2]
    have hgetD : getD (rectify warehouse
        ((realize_loop shop (bs.dishes.zip bs.counts) total []).2)) g =
        (lookup? (rectify warehouse
          ((realize_loop shop (bs.dishes.zip bs.counts) total []).2)) g).getD
          0 := rfl
    rw [hgetD, rectify_lookup, hplan g, if_pos hg]
    simp only [lookup?]
    rw [if_pos hdem2]
    simp only [Option.map_some', Option.getD_some]
    split
    next h => rw [max_eq_right (by omega)]
    next h => rw [max_eq_left (by omega)]
  · intro q hq
    rw [hfbs2] at hq
    obtain ⟨v, hv, hval⟩ := rectify_mem hq
    rw [hval]
    split <;> omega

/-- C7 witness: the theorem applied to a concrete catalog whose demand is
covered partly by the warehouse and partly by the shop. -/
theorem C7_purchase_plan_formula_witness :
    (∀ g, hasKey [("x", 3)] g = false →
      lookup? (find_best_solution 300 [("x", 1)] [("x", 3)] ["x"]
        [⟨"C", 10, 60, [("x", 1)]⟩] 2).2 g = none) ∧
    (∀ g, hasKey [("x", 3)] g = true →
      (∃ s ∈ (find_best_solution 300 [("x", 1)] [("x", 3)] ["x"]
          [⟨"C", 10, 60, [("x", 1)]⟩] 2).1,
        hasKey s.dish.ingredients g = true) →
      getD (find_best_solution 300 [("x", 1)] [("x", 3)] ["x"]
          [⟨"C", 10, 60, [("x", 1)]⟩] 2).2 g =
        max 0 (total_demand (find_best_solution 300 [("x", 1)] [("x", 3)]
          ["x"] [⟨"C", 10, 60, [("x", 1)]⟩] 2).1 g - getD [("x", 1)] g)) ∧
    (∀ q ∈ (find_best_solution 300 [("x", 1)] [("x", 3)] ["x"]
        [⟨"C", 10, 60, [("x", 1)]⟩] 2).2, 0 ≤ q.2) :=
  C7_purchase_plan_formula 300 [("x", 1)] [("x", 3)] ["x"]
    [⟨"C", 10, 60, [("x", 1)]⟩] 2 (by decide)

/-! ### Demand bounds that hold for every horizon -/

theorem single_demand_le {timeLimit : Int} {total : List (String × Int)}
    {d : Dish} (htotal : ∀ g, 0 ≤ getD total g)
    (hreq : ∀ p ∈ d.ingredients, 0 ≤ p.2) (g : String) :
    getD d.ingredients g * (optimize_single_dish timeLimit total d).1 ≤
      getD total g := by
  set c := (optimize_single_dish timeLimit total d).1 with hc
  have hcil : c ≤ calc_ingredient_limit d total := min_le_right _ _
  by_cases hk : hasKey d.ingredients g = true
  · have hr : 0 ≤ getD d.ingredients g := getD_nonneg hreq g
    rcases lt_or_eq_of_le hr with hpos | hzero
    · have hle : c ≤ (getD total g).fdiv (getD d.ingredients g) :=
        le_trans hcil (calc_ingredient_limit_le (getD_mem hk) hpos)
      have h2 := mul_le_of_le_fdiv hpos hle
      rw [mul_comm]
      exact h2
    · rw [← hzero]
      simpa using htotal g
  · rw [getD_eq_zero_of_not_hasKey (l := d.ingredients) (by simpa using hk)]
    simpa using htotal g

theorem cand_demand_le {timeLimit : Int} {total : List (String × Int)}
    {d1 d2 : Dish} {c1 : Int} (htotal : ∀ g, 0 ≤ getD total g)
    (hcm : can_make total d1 c1 = true)
    (hreq2 : ∀ p ∈ d2.ingredients, 0 ≤ p.2) (g : String) :
    c1 * getD d1.ingredients g +
      cand2 total d1 d2 (calc_time_limit timeLimit d2) c1 *
        getD d2.ingredients g ≤ getD total g := by
  have h1 : c1 * getD d1.ingredients g ≤ getD total g := by
    by_cases hk : hasKey d1.ingredients g = true
    · have := can_make_spec hcm _ (getD_mem hk)
      simpa using this
    · rw [getD_eq_zero_of_not_hasKey (l := d1.ingredients)
        (by simpa using hk)]
      simpa using htotal g
  have hr2 : 0 ≤ getD d2.ingredients g := getD_nonneg hreq2 g
  rcases lt_or_eq_of_le hr2 with hpos | hzero
  · by_cases hk2 : hasKey d2.ingredients g = true
    · have hle : cand2 total d1 d2 (calc_time_limit timeLimit d2) c1 ≤
          (getD (remaining_after total d1 c1) g).fdiv
            (getD d2.ingredients g) :=
        le_trans (min_le_right _ _)
          (calc_ingredient_limit_le (getD_mem hk2) hpos)
      have h2 := mul_le_of_le_fdiv hpos hle
      rw [getD_remaining_after] at h2
      by_cases hkt : hasKey total g = true
      · rw [if_pos hkt] at h2
        omega
      · rw [if_neg (by simpa using hkt)] at h2
        rw [getD_eq_zero_of_not_hasKey (l := total)
          (by simpa using hkt)] at h1 ⊢
        omega
    · rw [getD_eq_zero_of_not_hasKey (l := d2.ingredients)
        (by simpa using hk2)] at hpos
      omega
  · rw [← hzero]
    simpa using h1

theorem two_core_demand_le {timeLimit : Int} {total : List (String × Int)}
    (htotal : ∀ g, 0 ≤ getD total g) (d1 d2 : Dish)
    (hreq2 : ∀ p ∈ d2.ingredients, 0 ≤ p.2) (swapped : Bool) (g : String) :
    (two_core timeLimit total d1 d2 swapped).1.1 *
        getD (cond swapped d2 d1).ingredients g +
      (two_core timeLimit total d1 d2 swapped).1.2 *
        getD (cond swapped d1 d2).ingredients g ≤ getD total g := by
  rcases @two_core_cases timeLimit total d1 d2
    swapped with h | ⟨c1, h0, h1, hcm, heq⟩
  · rw [h]
    simpa using htotal g
  · rw [heq]
    have hc := @cand_demand_le timeLimit _ _ _ _ htotal hcm hreq2 g
    cases swapped with
    | true =>
      simp only [cond]
      simp
      omega
    | false =>
      simp only [cond]
      simp
      omega

theorem optimize_two_dishes_demand_le {timeLimit : Int}
    {total : List (String × Int)} (htotal : ∀ g, 0 ≤ getD total g)
    {dish1 dish2 : Dish} (hreq1 : ∀ p ∈ dish1.ingredients, 0 ≤ p.2)
    (hreq2 : ∀ p ∈ dish2.ingredients, 0 ≤ p.2) (g : String) :
    (optimize_two_dishes timeLimit total dish1 dish2).1.1 *
        getD dish1.ingredients g +
      (optimize_two_dishes timeLimit total dish1 dish2).1.2 *
        getD dish2.ingredients g ≤ getD total g := by
  unfold optimize_two_dishes
  split
  · exact two_core_demand_le htotal dish2 dish1 hreq1 true g
  · exact two_core_demand_le htotal dish1 dish2 hreq2 false g

theorem selected_demand_le {timeLimit : Int} {total : List (String × Int)}
    (htotal : ∀ g, 0 ≤ getD total g) (maxSlots : Int) {dishes : List Dish}
    (hreq : ∀ d ∈ dishes, ∀ p ∈ d.ingredients, 0 ≤ p.2) (g : String) :
    entries_demand
      ((phase2 timeLimit total maxSlots dishes
          (phase1 timeLimit total dishes)).dishes.zip
        (phase2 timeLimit total maxSlots dishes
          (phase1 timeLimit total dishes)).counts) g ≤ getD total g := by
  rcases phase2_cases timeLimit total maxSlots dishes
    (phase1 timeLimit total dishes) with h2 | ⟨pr, hpr, h2⟩
  · rw [h2]
    rcases phase1_cases timeLimit total dishes with h1 | ⟨d, hd, h1⟩
    · rw [h1]
      simp only [entries_demand, List.zip_nil_right]
      simpa using htotal g
    · rw [h1]
      simp only [single_cand, entries_demand, List.zip_cons_cons,
        List.zip_nil_right, List.map_cons, List.map_nil, List.sum_cons,
        List.sum_nil, add_zero]
      split
      · exact single_demand_le htotal (hreq d hd) g
      · simpa using htotal g
  · rw [h2]
    have hsub := pairs_mem_sub hpr
    have hle := @optimize_two_dishes_demand_le timeLimit _
      htotal _ _ (hreq pr.1 hsub.1) (hreq pr.2 hsub.2) g
    have hr1 : 0 ≤ getD pr.1.ingredients g := getD_nonneg (hreq pr.1 hsub.1) g
    have hr2 : 0 ≤ getD pr.2.ingredients g := getD_nonneg (hreq pr.2 hsub.2) g
    simp only [pair_cand, entries_demand, List.zip_cons_cons,
      List.zip_nil_right, List.map_cons, List.map_nil, List.sum_cons,
      List.sum_nil, add_zero]
    by_cases hk1 : hasKey pr.1.ingredients g = true
    · by_cases hk2 : hasKey pr.2.ingredients g = true
      · rw [if_pos hk1, if_pos hk2]
        nlinarith [hle]
      · rw [if_pos hk1, if_neg hk2]
        rw [getD_eq_zero_of_not_hasKey (l := pr.2.ingredients)
          (by simpa using hk2)] at hle
        nlinarith [hle]
    · by_cases hk2 : hasKey pr.2.ingredients g = true
      · rw [if_neg hk1, if_pos hk2]
        rw [getD_eq_zero_of_not_hasKey (l := pr.1.ingredients)
          (by simpa using hk1)] at hle
        nlinarith [hle]
      · rw [if_neg hk1, if_neg hk2]
        simpa using htotal g

/-! ### Key uniqueness of the accumulated purchase plan -/

theorem setKey_map_fst {l : List (String × Int)} {k : String} {v0 : Int}
    (h : lookup? l k = some v0) (v : Int) :
    (setKey l k v).map Prod.fst = l.map Prod.fst := by
  induction l with
  | nil => simp [lookup?] at h
  | cons p rest ih =>
    unfold setKey
    by_cases hp : p.1 = k
    · rw [if_pos hp]
      simp [hp]
    · rw [if_neg hp]
      simp only [lookup?, if_neg hp] at h
      simp [ih h]

theorem not_mem_fst_of_lookup_none {l : List (String × Int)} {k : String}
    (h : lookup? l k = none) : k ∉ l.map Prod.fst := by
  intro hmem
  rw [List.mem_map] at hmem
  obtain ⟨p, hp, hpk⟩ := hmem
  have := hasKey_of_mem hp
  rw [hpk] at this
  unfold hasKey at this
  rw [h] at this
  simp at this

theorem demand_step_nodup_keys {shop : List (String × Int)} {c : Int}
    {plan : List (String × Int)} (hnd : (plan.map Prod.fst).Nodup)
    (p : String × Int) :
    ((demand_step shop c plan p).map Prod.fst).Nodup := by
  unfold demand_step
  split
  · cases hv : lookup? plan p.1 with
    | some v =>
      simp only
      rw [setKey_map_fst hv]
      exact hnd
    | none =>
      simp only [List.map_append, List.map_cons, List.map_nil]
      rw [List.nodup_append]
      refine ⟨hnd, List.nodup_singleton _, ?_⟩
      intro a ha hb
      simp only [List.mem_singleton] at hb
      rw [hb] at ha
      exact not_mem_fst_of_lookup_none hv ha
  · exact hnd

theorem add_demand_nodup_keys {shop : List (String × Int)} {c : Int} :
    ∀ (l : List (String × Int)) (plan : List (String × Int)),
      (plan.map Prod.fst).Nodup →
      ((l.foldl (demand_step shop c) plan).map Prod.fst).Nodup := by
  intro l
  induction l with
  | nil =>
    intro plan hnd
    exact hnd
  | cons p rest ih =>
    intro plan hnd
    simp only [List.foldl_cons]
    exact ih _ (demand_step_nodup_keys hnd p)

theorem realize_plan_nodup_keys {shop : List (String × Int)} :
    ∀ (l : List (Dish × Int)) (remaining plan : List (String × Int)),
      (plan.map Prod.fst).Nodup →
      (((realize_loop shop l remaining plan).2).map Prod.fst).Nodup := by
  intro l
  induction l with
  | nil =>
    intro remaining plan hnd
    exact hnd
  | cons e rest ih =>
    intro remaining plan hnd
    obtain ⟨d, c⟩ := e
    simp only [realize_loop]
    exact ih _ _ (add_demand_nodup_keys d.ingredients plan hnd)

theorem lookup_of_mem_nodup_keys {l : List (String × Int)} {k : String}
    {v : Int} (hnd : (l.map Prod.fst).Nodup) (hmem : (k, v) ∈ l) :
    lookup? l k = some v := by
  have h1 : hasKey l k = true := by
    have := hasKey_of_mem hmem
    simpa using this
  have h2 : getD l k = v := getD_of_mem_nodup hnd hmem
  unfold hasKey at h1
  cases hv : lookup? l k with
  | none => rw [hv] at h1; simp at h1
  | some w =>
    have : getD l k = w := by
      unfold getD
      rw [hv]
      rfl
    rw [h2] at this
    rw [this]

/-- C10: with non-negative warehouse and shop pools and non-negative
ingredient requirements, every value of the returned purchase plan is at most
the shop pool quantity recorded for that ingredient: the plan never asks to
buy more of an ingredient than the shop's observed daily cap. -/
theorem C10_plan_le_shop (timeLimit : Int)
    (warehouse shop : List (String × Int)) (names : List String)
    (dishes : List Dish) (maxSlots : Int)
    (hw : ∀ p ∈ warehouse, 0 ≤ p.2) (hs : ∀ p ∈ shop, 0 ≤ p.2)
    (hreq : ∀ d ∈ dishes, ∀ p ∈ d.ingredients, 0 ≤ p.2)
    (hnd : ∀ d ∈ dishes, (d.ingredients.map Prod.fst).Nodup) :
    ∀ q ∈ (find_best_solution timeLimit warehouse shop names dishes
        maxSlots).2, q.2 ≤ getD shop q.1 := by
  intro q hq
  set total := total_ingredients names warehouse shop with htot
  have htotal : ∀ g, 0 ≤ getD total g := total_ingredients_nonneg hw hs names
  set bs := phase2 timeLimit total maxSlots dishes
    (phase1 timeLimit total dishes) with hbs
  have hnde : ∀ e ∈ bs.dishes.zip bs.counts,
      (e.1.ingredients.map Prod.fst).Nodup := by
    intro e he
    exact hnd e.1 (selected_dish_mem timeLimit total maxSlots dishes e he)
  have hfbs2 : (find_best_solution timeLimit warehouse shop names dishes
      maxSlots).2 =
      rectify warehouse
        ((realize_loop shop (bs.dishes.zip bs.counts) total []).2) := rfl
  rw [hfbs2] at hq
  obtain ⟨v, hv, hval⟩ := rectify_mem hq
  have hplannd : (((realize_loop shop (bs.dishes.zip bs.counts) total
      []).2).map Prod.fst).Nodup :=
    realize_plan_nodup_keys (bs.dishes.zip bs.counts) total [] (by simp)
  have hlook := lookup_of_mem_nodup_keys hplannd hv
  rw [realize_plan_lookup (g := q.1) (bs.dishes.zip bs.counts) total []
    hnde] at hlook
  have hveq : v = entries_demand (bs.dishes.zip bs.counts) q.1 := by
    by_cases hshop : hasKey shop q.1 = true
    · rw [if_pos hshop] at hlook
      simp only [lookup?] at hlook
      by_cases hex : ∃ e ∈ bs.dishes.zip bs.counts,
          hasKey e.1.ingredients q.1 = true
      · rw [if_pos hex] at hlook
        exact (Option.some_injective _ hlook).symm
      · rw [if_neg hex] at hlook
        simp at hlook
    · rw [if_neg hshop] at hlook
      simp [lookup?] at hlook
  have hdle : entries_demand (bs.dishes.zip bs.counts) q.1 ≤
      getD total q.1 := selected_demand_le htotal maxSlots hreq q.1
  have htotval : getD total q.1 ≤ getD warehouse q.1 + getD shop q.1 := by
    rw [htot, getD_total_ingredients]
    split
    · exact le_refl _
    · have := getD_nonneg hw q.1
      have := getD_nonneg hs q.1
      omega
  have hwh : 0 ≤ getD warehouse q.1 := getD_nonneg hw q.1
  have hshp : 0 ≤ getD shop q.1 := getD_nonneg hs q.1
  rw [hval, hveq]
  split <;> omega

/-- C10 witness: the theorem applied to a concrete catalog whose demand
exceeds the warehouse and draws on the shop. -/
theorem C10_plan_le_shop_witness :
    (∀ p ∈ [(("x", 1) : String × Int)], 0 ≤ p.2) ∧
    ∀ q ∈ (find_best_solution 300 [("x", 1)] [("x", 3)] ["x"]
        [⟨"C", 10, 60, [("x", 1)]⟩] 2).2, q.2 ≤ getD [("x", 3)] q.1 :=
  ⟨by decide,
    C10_plan_le_shop 300 [("x", 1)] [("x", 3)] ["x"]
      [⟨"C", 10, 60, [("x", 1)]⟩] 2 (by decide) (by decide) (by decide)
      (by decide)⟩

/-! ### Positivity of returned counts -/

theorem osd_count_pos {timeLimit : Int} {total : List (String × Int)} {d : Dish}
    (htotal : ∀ g, 0 ≤ getD total g) (htl : 0 ≤ timeLimit)
    (hpos : 0 < (optimize_single_dish timeLimit total d).2) :
    1 ≤ (optimize_single_dish timeLimit total d).1 := by
  have hcdef : (optimize_single_dish timeLimit total d).1 =
      min (calc_time_limit timeLimit d) (calc_ingredient_limit d total) := rfl
  have h0 : 0 ≤ (optimize_single_dish timeLimit total d).1 := by
    rw [hcdef]
    exact le_min (calc_time_limit_nonneg htl d)
      (calc_ingredient_limit_nonneg htotal)
  have hp : (optimize_single_dish timeLimit total d).2 =
      (optimize_single_dish timeLimit total d).1 * d.price := rfl
  rw [hp] at hpos
  by_contra h
  have hz : (optimize_single_dish timeLimit total d).1 = 0 := by omega
  rw [hz] at hpos
  simp at hpos

theorem single_fold_cases (timeLimit : Int) (total : List (String × Int)) :
    ∀ (l : List Dish) (bs0 : BestSolution), 0 ≤ bs0.profit →
      l.foldl (single_step timeLimit total) bs0 = bs0 ∨
      ∃ d ∈ l, l.foldl (single_step timeLimit total) bs0 =
          single_cand timeLimit total d ∧
        0 < (optimize_single_dish timeLimit total d).2 := by
  intro l
  induction l with
  | nil =>
    intro bs0 _
    left
    rfl
  | cons d rest ih =>
    intro bs0 h0
    simp only [List.foldl_cons]
    by_cases hgt : (optimize_single_dish timeLimit total d).2 > bs0.profit
    · have hstep : single_step timeLimit total bs0 d =
          single_cand timeLimit total d := by
        unfold single_step
        rw [if_pos hgt]
      rw [hstep]
      have hposd : 0 < (optimize_single_dish timeLimit total d).2 :=
        lt_of_le_of_lt h0 hgt
      have hpr : 0 ≤ (single_cand timeLimit total d).profit := le_of_lt hposd
      rcases ih (single_cand timeLimit total d) hpr with h1 | ⟨a, ha, h1, h2⟩
      · right
        exact ⟨d, List.mem_cons_self _ _, h1, hposd⟩
      · right
        exact ⟨a, List.mem_cons_of_mem _ ha, h1, h2⟩
    · have hstep : single_step timeLimit total bs0 d = bs0 := by
        unfold single_step
        rw [if_neg hgt]
      rw [hstep]
      rcases ih bs0 h0 with h1 | ⟨a, ha, h1, h2⟩
      · left
        exact h1
      · right
        exact ⟨a, List.mem_cons_of_mem _ ha, h1, h2⟩

theorem phase1_counts_pos {timeLimit : Int} {total : List (String × Int)}
    {dishes : List Dish} (htotal : ∀ g, 0 ≤ getD total g)
    (htl : 0 ≤ timeLimit) :
    ∀ c ∈ (phase1 timeLimit total dishes).counts, 1 ≤ c := by
  rcases single_fold_cases timeLimit total dishes ⟨[], [], 0, []⟩ (le_refl 0)
    with h | ⟨d, hd, heq, hposd⟩
  · have h' : phase1 timeLimit total dishes = ⟨[], [], 0, []⟩ := h
    rw [h']
    intro c hc
    simp at hc
  · have h' : phase1 timeLimit total dishes = single_cand timeLimit total d :=
      heq
    rw [h']
    intro c hc
    have hc' : c = (optimize_single_dish timeLimit total d).1 := by
      simpa [single_cand] using hc
    rw [hc']
    exact osd_count_pos htotal htl hposd

theorem two_core_counts_pos {timeLimit : Int} {total : List (String × Int)}
    {d1 d2 : Dish} {swapped : Bool}
    (htotal : ∀ g, 0 ≤ getD total g) (htl : 0 ≤ timeLimit)
    (hpos1 : ∃ p ∈ d1.ingredients, 0 < p.2)
    (hprof : 0 < (two_core timeLimit total d1 d2 swapped).2)
    (hlt_out : (optimize_single_dish timeLimit total d1).2 <
      (two_core timeLimit total d1 d2 swapped).2)
    (hlt_in : (optimize_single_dish timeLimit total d2).2 <
      (two_core timeLimit total d1 d2 swapped).2) :
    1 ≤ (two_core timeLimit total d1 d2 swapped).1.1 ∧
    1 ≤ (two_core timeLimit total d1 d2 swapped).1.2 := by
  rcases two_core_cases d1 d2 swapped with heq | ⟨c1, hc10, hc1tl, hcm, heq⟩
  · rw [heq] at hprof
    simp at hprof
  · have hprofeq : (two_core timeLimit total d1 d2 swapped).2 =
        cand_profit total d1 d2 (calc_time_limit timeLimit d2) c1 := by
      rw [heq]
    have hcounts : (two_core timeLimit total d1 d2 swapped).1 =
        (if swapped then
          (cand2 total d1 d2 (calc_time_limit timeLimit d2) c1, c1)
        else (c1, cand2 total d1 d2 (calc_time_limit timeLimit d2) c1)) := by
      rw [heq]
    have hc20 : 0 ≤ cand2 total d1 d2 (calc_time_limit timeLimit d2) c1 :=
      cand2_nonneg htotal htl hcm
    have hc11 : 1 ≤ c1 := by
      by_contra h
      have hz : c1 = 0 := by omega
      rw [hprofeq, hz, @cand_profit_zero timeLimit _ d1 d2]
        at hlt_in
      exact lt_irrefl _ hlt_in
    have hc21 : 1 ≤ cand2 total d1 d2 (calc_time_limit timeLimit d2) c1 := by
      by_contra h
      have hz : cand2 total d1 d2 (calc_time_limit timeLimit d2) c1 = 0 := by
        omega
      have hpe : (two_core timeLimit total d1 d2 swapped).2 =
          c1 * d1.price := by
        rw [hprofeq]
        unfold cand_profit
        rw [hz]
        ring
      by_cases hp : 0 ≤ d1.price
      · have hs1 : c1 ≤ (optimize_single_dish timeLimit total d1).1 := by
          have h1 : (optimize_single_dish timeLimit total d1).1 =
              min (calc_time_limit timeLimit d1)
                (calc_ingredient_limit d1 total) := rfl
          rw [h1]
          refine le_min hc1tl ?_
          refine le_calc_ingredient_limit hpos1 ?_
          intro p hpmem hpp
          rw [le_fdiv_iff hpp]
          exact can_make_spec hcm p hpmem
        have hmul : c1 * d1.price ≤
            (optimize_single_dish timeLimit total d1).1 * d1.price :=
          mul_le_mul_of_nonneg_right hs1 hp
        have hsp : (optimize_single_dish timeLimit total d1).2 =
            (optimize_single_dish timeLimit total d1).1 * d1.price := rfl
        rw [hpe] at hlt_out
        rw [hsp] at hlt_out
        exact absurd hlt_out (not_lt.mpr hmul)
      · push_neg at hp
        have hmul : c1 * d1.price ≤ c1 * 0 :=
          mul_le_mul_of_nonneg_left hp.le hc10
        simp at hmul
        rw [hpe] at hprof
        exact absurd hprof (not_lt.mpr hmul)
    rw [hcounts]
    cases swapped with
    | true => exact ⟨by simpa using hc21, by simpa using hc11⟩
    | false => exact ⟨by simpa using hc11, by simpa using hc21⟩

theorem otd_counts_pos {timeLimit : Int} {total : List (String × Int)}
    {dish1 dish2 : Dish}
    (htotal : ∀ g, 0 ≤ getD total g) (htl : 0 ≤ timeLimit)
    (hpos1 : ∃ p ∈ dish1.ingredients, 0 < p.2)
    (hpos2 : ∃ p ∈ dish2.ingredients, 0 < p.2)
    (hprof : 0 < (optimize_two_dishes timeLimit total dish1 dish2).2)
    (hlt1 : (optimize_single_dish timeLimit total dish1).2 <
      (optimize_two_dishes timeLimit total dish1 dish2).2)
    (hlt2 : (optimize_single_dish timeLimit total dish2).2 <
      (optimize_two_dishes timeLimit total dish1 dish2).2) :
    1 ≤ (optimize_two_dishes timeLimit total dish1 dish2).1.1 ∧
    1 ≤ (optimize_two_dishes timeLimit total dish1 dish2).1.2 := by
  by_cases hr : dish1.profit_rate < dish2.profit_rate
  · have he : optimize_two_dishes timeLimit total dish1 dish2 =
        two_core timeLimit total dish2 dish1 true := by
      unfold optimize_two_dishes
      rw [if_pos hr]
    rw [he] at hprof hlt1 hlt2 ⊢
    exact two_core_counts_pos htotal htl hpos2 hprof hlt2 hlt1
  · have he : optimize_two_dishes timeLimit total dish1 dish2 =
        two_core timeLimit total dish1 dish2 false := by
      unfold optimize_two_dishes
      rw [if_neg hr]
    rw [he] at hprof hlt1 hlt2 ⊢
    exact two_core_counts_pos htotal htl hpos1 hprof hlt1 hlt2

theorem pair_fold_counts_pos (timeLimit : Int) (total : List (String × Int))
    (dishes : List Dish)
    (htotal : ∀ g, 0 ≤ getD total g) (htl : 0 ≤ timeLimit)
    (hpos : ∀ d ∈ dishes, ∃ p ∈ d.ingredients, 0 < p.2) :
    ∀ (l : List (Dish × Dish)),
      (∀ pr ∈ l, pr.1 ∈ dishes ∧ pr.2 ∈ dishes) →
      ∀ (bs0 : BestSolution),
        single_best_profit timeLimit total dishes ≤ bs0.profit →
        (∀ c ∈ bs0.counts, 1 ≤ c) →
        single_best_profit timeLimit total dishes ≤
          (l.foldl (pair_step timeLimit total) bs0).profit ∧
        ∀ c ∈ (l.foldl (pair_step timeLimit total) bs0).counts, 1 ≤ c := by
  intro l
  induction l with
  | nil =>
    intro _ bs0 h1 h2
    exact ⟨h1, h2⟩
  | cons pr rest ih =>
    intro hmem bs0 h1 h2
    simp only [List.foldl_cons]
    have hm1 : pr.1 ∈ dishes := (hmem pr (List.mem_cons_self _ _)).1
    have hm2 : pr.2 ∈ dishes := (hmem pr (List.mem_cons_self _ _)).2
    have hsbp0 : 0 ≤ single_best_profit timeLimit total dishes := by
      unfold single_best_profit
      exact foldl_max_ge_init _ dishes 0
    have hle1 : (optimize_single_dish timeLimit total pr.1).2 ≤
        single_best_profit timeLimit total dishes := by
      unfold single_best_profit
      exact foldl_max_ge_mem _ dishes 0 pr.1 hm1
    have hle2 : (optimize_single_dish timeLimit total pr.2).2 ≤
        single_best_profit timeLimit total dishes := by
      unfold single_best_profit
      exact foldl_max_ge_mem _ dishes 0 pr.2 hm2
    by_cases hgt : (optimize_two_dishes timeLimit total pr.1 pr.2).2 >
        bs0.profit
    · have hstep : pair_step timeLimit total bs0 pr =
          pair_cand timeLimit total pr := by
        unfold pair_step
        rw [if_pos hgt]
      rw [hstep]
      have hprof : 0 < (optimize_two_dishes timeLimit total pr.1 pr.2).2 :=
        lt_of_le_of_lt (le_trans hsbp0 h1) hgt
      have hlt1 : (optimize_single_dish timeLimit total pr.1).2 <
          (optimize_two_dishes timeLimit total pr.1 pr.2).2 :=
        lt_of_le_of_lt (le_trans hle1 h1) hgt
      have hlt2 : (optimize_single_dish timeLimit total pr.2).2 <
          (optimize_two_dishes timeLimit total pr.1 pr.2).2 :=
        lt_of_le_of_lt (le_trans hle2 h1) hgt
      have hcts := otd_counts_pos htotal htl (hpos pr.1 hm1) (hpos pr.2 hm2)
        hprof hlt1 hlt2
      refine ih (fun q hq => hmem q (List.mem_cons_of_mem _ hq))
        (pair_cand timeLimit total pr) ?_ ?_
      · have hpc : (pair_cand timeLimit total pr).profit =
            (optimize_two_dishes timeLimit total pr.1 pr.2).2 := rfl
        rw [hpc]
        exact le_trans h1 (le_of_lt hgt)
      · intro c hc
        have hcc : c = (optimize_two_dishes timeLimit total pr.1 pr.2).1.1 ∨
            c = (optimize_two_dishes timeLimit total pr.1 pr.2).1.2 := by
          simpa [pair_cand] using hc
        rcases hcc with h | h
        · rw [h]
          exact hcts.1
        · rw [h]
          exact hcts.2
    · have hstep : pair_step timeLimit total bs0 pr = bs0 := by
        unfold pair_step
        rw [if_neg hgt]
      rw [hstep]
      exact ih (fun q hq => hmem q (List.mem_cons_of_mem _ hq)) bs0 h1 h2

theorem best_counts_pos {timeLimit : Int} {total : List (String × Int)}
    {dishes : List Dish} (maxSlots : Int)
    (htotal : ∀ g, 0 ≤ getD total g) (htl : 0 ≤ timeLimit)
    (hpos : ∀ d ∈ dishes, ∃ p ∈ d.ingredients, 0 < p.2) :
    ∀ c ∈ (phase2 timeLimit total maxSlots dishes
        (phase1 timeLimit total dishes)).counts, 1 ≤ c := by
  have hp1p : single_best_profit timeLimit total dishes ≤
      (phase1 timeLimit total dishes).profit :=
    le_of_eq (phase1_profit_eq timeLimit total dishes).symm
  have hp1c := @phase1_counts_pos _ _ dishes htotal htl
  unfold phase2
  split
  · exact (pair_fold_counts_pos timeLimit total dishes htotal htl hpos
      (pairs dishes) (fun pr hpr => pairs_mem_sub hpr)
      (phase1 timeLimit total dishes) hp1p hp1c).2
  · exact hp1c

/-- C9 counterexample: the claim quantifies over every horizon; at the
negative horizon of -120 minutes, with a dish of negative price carrying a
positive ingredient requirement and non-negative pools, the truncated time
limit is -2, the single-dish profit (-2) * (-10) = 20 beats 0, and the
returned allocation carries the count -2 < 1. -/
theorem C9_counterexample :
    ∃ s ∈ (find_best_solution (-120) [("x", 5)] [] ["x"]
        [⟨"N", -10, 60, [("x", 1)]⟩] 2).1, s.count < 1 := by
  decide

/-- C9 (amended): under the claim's hypotheses (every produceable item has
an ingredient requirement of positive quantity, all pool quantities
non-negative) strengthened by a non-negative horizon, every `MenuSolution`
returned by `find_best_solution` has a count of at least 1: a two-item
candidate with a zero count can never strictly beat the best single-item
profit, so it is never selected. -/
theorem C9_counts_positive (timeLimit : Int)
    (warehouse shop : List (String × Int)) (names : List String)
    (dishes : List Dish) (maxSlots : Int)
    (hw : ∀ p ∈ warehouse, 0 ≤ p.2) (hs : ∀ p ∈ shop, 0 ≤ p.2)
    (htl : 0 ≤ timeLimit)
    (hpos : ∀ d ∈ dishes, ∃ p ∈ d.ingredients, 0 < p.2) :
    ∀ s ∈ (find_best_solution timeLimit warehouse shop names dishes
        maxSlots).1, 1 ≤ s.count := by
  intro s hsmem
  have htotal : ∀ g, 0 ≤ getD (total_ingredients names warehouse shop) g :=
    total_ingredients_nonneg hw hs names
  have hmap := find_best_solution_entries timeLimit warehouse shop names
    dishes maxSlots
  have hzip : (s.dish, s.count) ∈
      (phase2 timeLimit (total_ingredients names warehouse shop) maxSlots
        dishes (phase1 timeLimit (total_ingredients names warehouse shop)
          dishes)).dishes.zip
      (phase2 timeLimit (total_ingredients names warehouse shop) maxSlots
        dishes (phase1 timeLimit (total_ingredients names warehouse shop)
          dishes)).counts := by
    rw [← hmap]
    exact List.mem_map_of_mem _ hsmem
  have hcnt := (List.of_mem_zip hzip).2
  exact best_counts_pos maxSlots htotal htl hpos s.count hcnt

/-- C9 witness: the amended theorem applied to a concrete one-dish catalog
with a positive horizon. -/
theorem C9_counts_positive_witness :
    (0 : Int) ≤ 300 ∧
    ∀ s ∈ (find_best_solution 300 [("x", 5)] [] ["x"]
        [⟨"C", 10, 60, [("x", 1)]⟩] 2).1, 1 ≤ s.count :=
  ⟨by decide,
    C9_counts_positive 300 [("x", 5)] [] ["x"] [⟨"C", 10, 60, [("x", 1)]⟩] 2
      (by decide) (by decide) (by decide) (by decide)⟩

end MAG
